import Mathlib

/-!
# LuxLogger: `LogStream.h`

A shallow embedding of `Lux::detail::FixedBuffer<SIZE>` and `Lux::LogStream`
(`src/LogStream.h`) together with the properties of the fixed buffer and of the
text overloads of the stream.

Conventions of the embedding

* a `char` is a `Byte` (`UInt8`); a region of memory is a `List Byte`;
* a pointer into `data_` is the integer offset from `data_` (so `cur_` is the
  value of `cur_ - data_` and `end()` is `SIZE`);
* a `const char*` argument is the list of bytes readable from that address;
* `size_t` values are natural numbers, `int` values are integers, and the
  conversions between them are explicit (`static_cast_int`,
  `static_cast_size_t`, `implicit_cast_size_t`);
* a member function that mutates the object is a function returning the new
  object; `return *this` is the returned new object.
-/

namespace Lux

/-- One `char` of storage. -/
abbrev Byte := UInt8

/-- The conversion `static_cast<int>(x)` of a pointer difference to a 32-bit
`int`: the value is reduced into `[-2^31, 2^31)`. -/
def static_cast_int (x : Int) : Int := (x + 2147483648) % 4294967296 - 2147483648

/-- The conversion `static_cast<size_t>(x)` of an integer to the 64-bit
unsigned `size_t`: the value is reduced modulo `2^64`. -/
def static_cast_size_t (x : Int) : Nat := (x % 18446744073709551616).toNat

/-- Modelled from the spec: `implicit_cast` is declared in `Types.h`, which is
not among the sources. The spec compares `available()` with the `size_t` length
`len`, so `implicit_cast<size_t>(int)` is the implicit integral conversion of
the `int` to `size_t`. -/
def implicit_cast_size_t (x : Int) : Nat := static_cast_size_t x

/-- One byte store `p[off] = v` into the array `mem`. A store whose offset is
outside the array does not change the array: it lands in the memory next to the
array, which is not part of the model. The model of a store is therefore exact
for the offsets inside the array, which are the only ones used while
`0 <= cursor <= N`; `memcpyStores` lists every store, the outside ones too. -/
def storeByte (mem : List Byte) (off : Int) (v : Byte) : List Byte :=
  if 0 ≤ off then mem.set off.toNat v else mem

/-- The effect of `::memcpy(dst + off, src, n)` on the array `dst`: byte `i` of
`src` is stored at offset `off + i`, for `i < n`. -/
def memcpy (dst : List Byte) (off : Int) (src : List Byte) : Nat → List Byte
  | 0 => dst
  | n + 1 => storeByte (memcpy dst off src n) (off + (n : Int)) (src.getD n 0)

/-- Modelled from the spec: `memZero` is declared in `Types.h`, which is not
among the sources. The spec says that `bzero()` zeroes all N bytes, so
`memZero(p, n)` stores the zero byte at the offsets `0 .. n - 1` of `p`. -/
def memZero (p : List Byte) : Nat → List Byte
  | 0 => p
  | n + 1 => storeByte (memZero p n) (n : Int) 0

/-- The bytes of an ASCII text, without a terminating zero byte. -/
def asciiBytes (t : String) : List Byte := t.toList.map (fun c => UInt8.ofNat c.toNat)

/-- The function `strlen(str)`: the number of bytes before the first zero byte. -/
def strlen : List Byte → Nat
  | [] => 0
  | c :: cs => if c = 0 then 0 else strlen cs + 1

/-- The constructor `std::string(p, n)`: the first `n` bytes at `p`. The model
is exact when `n` is at most the length of the array `p`, as it is for
`toString()` while `0 <= cursor <= N`; the bytes that the constructor would read
past the end of the array are not part of the model. -/
def string_ctor (p : List Byte) (n : Nat) : List Byte := p.take n

/-- Modelled from the spec: `StringPiece` is declared in `StringPiece.h`, which
is not among the sources. The spec calls it a bounded, non-owning view (pointer
and declared length): `data()` is the pointer and `size()` the declared length. -/
structure StringPiece where
  /-- The bytes readable from `data()`. -/
  data : List Byte
  /-- The declared length `size()`. -/
  size : Int
  deriving DecidableEq

/-- The bytes a view denotes: the first `size()` bytes at `data()`. -/
def StringPiece.bytes (v : StringPiece) : List Byte :=
  string_ctor v.data (static_cast_size_t v.size)

namespace detail

/-- The constant `kSmallBuffer`. -/
def kSmallBuffer : Nat := 4000

/-- The constant `kLargeBuffer`. -/
def kLargeBuffer : Nat := 4000 * 1000

/-- The two marker routines a `cookie_` can point to. -/
inductive Cookie where
  | cookieStart
  | cookieEnd
  deriving DecidableEq, Repr

/-- The class `FixedBuffer<SIZE>`: the members `cookie_`, `data_` and `cur_`
(the latter as its offset from `data_`). -/
structure FixedBuffer (SIZE : Nat) where
  cookie_ : Cookie
  data_ : List Byte
  cur_ : Int
  deriving DecidableEq

namespace FixedBuffer

variable {SIZE : Nat}

/-- The private `end()`: `data_ + sizeof data_`, as an offset from `data_`. -/
def end_ (_b : FixedBuffer SIZE) : Int := (SIZE : Int)

/-- The member `setCookie(cookie)`. -/
def setCookie (b : FixedBuffer SIZE) (cookie : Cookie) : FixedBuffer SIZE :=
  { b with cookie_ := cookie }

/-- The constructor `FixedBuffer() : cur_(data_) { setCookie(cookieStart); }`.
The array `data_` is not initialised: `init` is whatever it holds. -/
def ctor (init : List Byte) : FixedBuffer SIZE :=
  setCookie { cookie_ := Cookie.cookieStart, data_ := init, cur_ := 0 } Cookie.cookieStart

/-- The member `data()`. -/
def data (b : FixedBuffer SIZE) : List Byte := b.data_

/-- The member `length()`: `static_cast<int>(cur_ - data_)`. -/
def length (b : FixedBuffer SIZE) : Int := static_cast_int b.cur_

/-- The member `current()`. -/
def current (b : FixedBuffer SIZE) : Int := b.cur_

/-- The member `avail()`: `static_cast<int>(end() - cur_)`. -/
def avail (b : FixedBuffer SIZE) : Int := static_cast_int (b.end_ - b.cur_)

/-- The member `add(len)`: `cur_ += len`. -/
def add (b : FixedBuffer SIZE) (len : Nat) : FixedBuffer SIZE :=
  { b with cur_ := b.cur_ + (len : Int) }

/-- The member `append(buf, len)`. -/
def append (b : FixedBuffer SIZE) (buf : List Byte) (len : Nat) : FixedBuffer SIZE :=
  if implicit_cast_size_t b.avail > len then
    { b with data_ := memcpy b.data_ b.cur_ buf len, cur_ := b.cur_ + (len : Int) }
  else b

/-- The member `reset()`: `cur_ = data_`. -/
def reset (b : FixedBuffer SIZE) : FixedBuffer SIZE := { b with cur_ := 0 }

/-- The member `bzero()`: `memZero(data_, sizeof data_)`. -/
def bzero (b : FixedBuffer SIZE) : FixedBuffer SIZE :=
  { b with data_ := memZero b.data_ SIZE }

/-- The member `toString()`: `string(data_, length())`. -/
def toString (b : FixedBuffer SIZE) : List Byte :=
  string_ctor b.data_ (static_cast_size_t b.length)

/-- The member `toStringPiece()`:
`StringPiece(data_, static_cast<size_t>(length()))`. -/
def toStringPiece (b : FixedBuffer SIZE) : StringPiece :=
  { data := b.data_, size := (static_cast_size_t b.length : Int) }

/-- What the declaration `char data_[SIZE]` with `template <int SIZE>` fixes:
the array has exactly `SIZE` bytes and `SIZE` is a value of type `int`. -/
def Storage (b : FixedBuffer SIZE) : Prop :=
  b.data_.length = SIZE ∧ SIZE < 2147483648

/-- The cursor invariant `0 <= cursor <= N`. -/
def CursorInRange (b : FixedBuffer SIZE) : Prop :=
  0 ≤ b.cur_ ∧ b.cur_ ≤ (SIZE : Int)

instance (b : FixedBuffer SIZE) : Decidable b.Storage :=
  inferInstanceAs (Decidable (b.data_.length = SIZE ∧ SIZE < 2147483648))

instance (b : FixedBuffer SIZE) : Decidable b.CursorInRange :=
  inferInstanceAs (Decidable (0 ≤ b.cur_ ∧ b.cur_ ≤ (SIZE : Int)))

end FixedBuffer

end detail

open detail

/-- The class `LogStream`: its only data member is `buffer_`. -/
structure LogStream where
  buffer_ : FixedBuffer kSmallBuffer
  deriving DecidableEq

namespace LogStream

/-- The type alias `LogStream::Buffer`. -/
abbrev Buffer := FixedBuffer kSmallBuffer

/-- The constant `kMaxNumericSize`. -/
def kMaxNumericSize : Nat := 48

/-- The implicit default constructor: `buffer_` is default-constructed over the
uninitialised storage `init`. -/
def ctor (init : List Byte) : LogStream := { buffer_ := FixedBuffer.ctor init }

/-- The overload `operator<<(bool v)`: `buffer_.append(v ? "1" : "0", 1)`. The
string literals are the character followed by the terminating zero byte. -/
def lshift_bool (s : LogStream) (v : Bool) : LogStream :=
  { s with buffer_ := s.buffer_.append (if v then [49, 0] else [48, 0]) 1 }

/-- The overload `operator<<(char v)`: `buffer_.append(&v, 1)`. -/
def lshift_char (s : LogStream) (v : Byte) : LogStream :=
  { s with buffer_ := s.buffer_.append [v] 1 }

/-- The overload `operator<<(const char* str)`; `none` is the null pointer and
`some p` a pointer to the bytes `p`. The literal `"(null)"` is its six
characters followed by the terminating zero byte. -/
def lshift_cstr (s : LogStream) (str : Option (List Byte)) : LogStream :=
  match str with
  | some p => { s with buffer_ := s.buffer_.append p (strlen p) }
  | none => { s with buffer_ := s.buffer_.append [40, 110, 117, 108, 108, 41, 0] 6 }

/-- The overload `operator<<(const std::string& v)`:
`buffer_.append(v.c_str(), v.size())`, where `c_str()` is the content of `v`
followed by a zero byte and `size()` is the length of the content. -/
def lshift_string (s : LogStream) (v : List Byte) : LogStream :=
  { s with buffer_ := s.buffer_.append (v ++ [0]) v.length }

/-- The overload `operator<<(const StringPiece& v)`:
`buffer_.append(v.data(), static_cast<size_t>(v.size()))`. -/
def lshift_StringPiece (s : LogStream) (v : StringPiece) : LogStream :=
  { s with buffer_ := s.buffer_.append v.data (static_cast_size_t v.size) }

/-- The overload `operator<<(const Buffer& v)`: `*this << v.toStringPiece()`. -/
def lshift_Buffer (s : LogStream) (v : Buffer) : LogStream :=
  s.lshift_StringPiece v.toStringPiece

/-- The member `append(data, len)` with `int len`:
`buffer_.append(data, static_cast<size_t>(len))`. -/
def append (s : LogStream) (data : List Byte) (len : Int) : LogStream :=
  { s with buffer_ := s.buffer_.append data (static_cast_size_t len) }

/-- The member `buffer()`. -/
def buffer (s : LogStream) : Buffer := s.buffer_

/-- The member `resetBuffer()`: `buffer_.reset()`. -/
def resetBuffer (s : LogStream) : LogStream := { s with buffer_ := s.buffer_.reset }

end LogStream

/-! ## Call sequences -/

/-- One call on a `FixedBuffer` among `append`, `reset` and `bzero`. -/
inductive BufferCall where
  | append (buf : List Byte) (len : Nat)
  | reset
  | bzero
  deriving DecidableEq

/-- The buffer after one call. -/
def BufferCall.apply {SIZE : Nat} (b : FixedBuffer SIZE) : BufferCall → FixedBuffer SIZE
  | BufferCall.append buf len => b.append buf len
  | BufferCall.reset => b.reset
  | BufferCall.bzero => b.bzero

/-- The buffer after a finite sequence of calls, in order. -/
def runCalls {SIZE : Nat} (b : FixedBuffer SIZE) (calls : List BufferCall) : FixedBuffer SIZE :=
  calls.foldl BufferCall.apply b

/-- The buffer after appending each of the byte sequences `inputs` in order,
each with its own length. -/
def appendAll {SIZE : Nat} (b : FixedBuffer SIZE) (inputs : List (List Byte)) : FixedBuffer SIZE :=
  inputs.foldl (fun acc d => acc.append d d.length) b

/-- The inputs of an append sequence whose length was strictly less than
`avail()` at the moment they were appended, in order. -/
def acceptedInputs {SIZE : Nat} (b : FixedBuffer SIZE) : List (List Byte) → List (List Byte)
  | [] => []
  | d :: rest =>
    if (d.length : Int) < b.avail then d :: acceptedInputs (b.append d d.length) rest
    else acceptedInputs (b.append d d.length) rest

/-! ## Integer formatting -/

/-- The character of the decimal digit `d`. -/
def digitChar (d : Nat) : Byte := UInt8.ofNat (48 + d)

/-- Modelled from the spec: the static lookup table of integer formatting is in
`LogStream.cc`, which is not among the sources. The spec describes it as the
two-character decimal representations of 0 to 99; entry `r` holds the tens
character and the units character of `r`. -/
def digitTable : List (Byte × Byte) :=
  (List.range 100).map (fun r => (digitChar (r / 10), digitChar (r % 10)))

/-- Modelled from the spec: the digit extraction of `formatInteger`, whose body
is in `LogStream.cc`, not among the sources. The spec: digits are extracted least
significant first into the scratch array, through the table of two-character
representations, two digits at a time. Each of the `steps` rounds writes two
bytes of the scratch array, except the last, which writes one byte when a single
digit is left. The result is the scratch content, least significant digit
first. -/
def extractDigits : Nat → Nat → List Byte
  | 0, _ => []
  | steps + 1, value =>
    if value < 10 then [digitChar value]
    else if value < 100 then
      [(digitTable.getD (value % 100) (48, 48)).2, (digitTable.getD (value % 100) (48, 48)).1]
    else
      (digitTable.getD (value % 100) (48, 48)).2 ::
        (digitTable.getD (value % 100) (48, 48)).1 :: extractDigits steps (value / 100)

/-- The conversion of an integer to the unsigned type of width `w`. -/
def toUnsigned (w : Nat) (v : Int) : Nat := (v % (2 : Int) ^ w).toNat

/-- Modelled from the spec: the magnitude computed by `formatInteger`. The spec:
the value is converted to the unsigned counterpart of the same width first, so
that the minimum negative value does not overflow negation; the negation is the
unsigned one, modulo `2^w`. -/
def magnitude (w : Nat) (v : Int) : Nat :=
  if v < 0 then (2 ^ w - toUnsigned w v) % 2 ^ w else toUnsigned w v

/-- Modelled from the spec: the plain decimal text of a non-negative value, as
integer formatting produces it: the extracted digits reversed into final order.
The 48-byte scratch array leaves room for 24 two-digit rounds. -/
def decimalText (n : Nat) : List Byte := (extractDigits 24 n).reverse

/-- Modelled from the spec: the text produced by `formatInteger` for the value
`v` of an integer type of width `w`, the body being in `LogStream.cc`, not among
the sources. The spec: decimal text, no leading zeros, leading `-` for negative;
digits of the unsigned magnitude are extracted, reversed into final order, and
the sign is prepended if needed. -/
def formatIntegerText (w : Nat) (v : Int) : List Byte :=
  (if v < 0 then [45] else []) ++ decimalText (magnitude w v)

/-- Whether a byte is a decimal digit character. -/
def isDigit (c : Byte) : Bool := decide (48 ≤ c.toNat) && decide (c.toNat ≤ 57)

/-- A standard base-10 parser of an unsigned integer: one or more digits, read
most significant first. -/
def parseNat (t : List Byte) : Option Nat :=
  if t ≠ [] ∧ t.all isDigit = true then
    some (t.foldl (fun acc c => 10 * acc + (c.toNat - 48)) 0)
  else none

/-- A standard base-10 parser of an integer: an optional `-` followed by one or
more digits. -/
def parseInteger (t : List Byte) : Option Int :=
  match t with
  | [] => none
  | c :: rest =>
    if c = 45 then Option.map (fun (n : Nat) => -(n : Int)) (parseNat rest)
    else Option.map (fun (n : Nat) => (n : Int)) (parseNat (c :: rest))

/-- The values of the signed or unsigned integer type of width `w`. -/
def InRange (signed : Bool) (w : Nat) (v : Int) : Prop :=
  if signed then -(2 : Int) ^ (w - 1) ≤ v ∧ v < (2 : Int) ^ (w - 1)
  else 0 ≤ v ∧ v < (2 : Int) ^ w

instance (signed : Bool) (w : Nat) (v : Int) : Decidable (InRange signed w v) := by
  unfold InRange; split <;> infer_instance

namespace LogStream

/-- Modelled from the spec: the member template `formatInteger`, declared in the
class but defined in `LogStream.cc`, not among the sources. The spec: the text
is built in the scratch array and appended to the buffer. -/
def formatInteger (s : LogStream) (w : Nat) (v : Int) : LogStream :=
  { s with buffer_ := s.buffer_.append (formatIntegerText w v) (formatIntegerText w v).length }

/-- Modelled from the spec: `operator<<(short)`, defined in `LogStream.cc`. -/
def lshift_short (s : LogStream) (v : Int) : LogStream := s.formatInteger 16 v

/-- Modelled from the spec: `operator<<(unsigned short)`, defined in `LogStream.cc`. -/
def lshift_ushort (s : LogStream) (v : Int) : LogStream := s.formatInteger 16 v

/-- Modelled from the spec: `operator<<(int)`, defined in `LogStream.cc`. -/
def lshift_int (s : LogStream) (v : Int) : LogStream := s.formatInteger 32 v

/-- Modelled from the spec: `operator<<(unsigned int)`, defined in `LogStream.cc`. -/
def lshift_uint (s : LogStream) (v : Int) : LogStream := s.formatInteger 32 v

/-- Modelled from the spec: `operator<<(long)`, defined in `LogStream.cc`. -/
def lshift_long (s : LogStream) (v : Int) : LogStream := s.formatInteger 64 v

/-- Modelled from the spec: `operator<<(unsigned long)`, defined in `LogStream.cc`. -/
def lshift_ulong (s : LogStream) (v : Int) : LogStream := s.formatInteger 64 v

/-- Modelled from the spec: `operator<<(long long)`, defined in `LogStream.cc`. -/
def lshift_longlong (s : LogStream) (v : Int) : LogStream := s.formatInteger 64 v

/-- Modelled from the spec: `operator<<(unsigned long long)`, defined in
`LogStream.cc`. -/
def lshift_ulonglong (s : LogStream) (v : Int) : LogStream := s.formatInteger 64 v

end LogStream

/-! ## Quantity formatting -/

/-- Modelled from the spec: the unit selection of `formatSI` and `formatIEC`,
which are declared in `LogStream.h` and defined in `LogStream.cc`, not among the
sources. The spec: the largest unit is selected; the result is the index `k` of
the largest of the first `units` units with `base ^ k <= n`, and 0 when `n` is
below `base`. -/
def selectUnit (base : Nat) : Nat → Nat → Nat
  | 0, _ => 0
  | k + 1, n => if base ^ (k + 1) ≤ n then k + 1 else selectUnit base k n

/-- Modelled from the spec: the scaling logic shared by `formatSI` and
`formatIEC`, which are declared in `LogStream.h` and defined in `LogStream.cc`,
not among the sources. The spec: a small value, here one below `plain`, is
rendered as the plain integer with no suffix; otherwise the value is scaled by
the multiple of the largest unit and shown with one decimal place where the
leading digit would otherwise be alone, and as an integer otherwise, truncated
and not rounded, followed by the suffix of the unit. The argument is the
non-negative count `n` (the declaration requires `n >= 0`). -/
def formatQuantity (plain base : Nat) (suffixes : List (List Byte)) (n : Nat) : List Byte :=
  if n < plain then decimalText n
  else if n / base ^ selectUnit base 6 n < 10 then
    decimalText (n / base ^ selectUnit base 6 n) ++ [46] ++
      decimalText (n * 10 / base ^ selectUnit base 6 n % 10) ++
      suffixes.getD (selectUnit base 6 n - 1) []
  else
    decimalText (n / base ^ selectUnit base 6 n) ++ suffixes.getD (selectUnit base 6 n - 1) []

/-- The suffixes of the SI units: `k`, `M`, `G`, `T`, `P`, `E`. -/
def siSuffixes : List (List Byte) := ["k", "M", "G", "T", "P", "E"].map asciiBytes

/-- The suffixes of the IEC units: `Ki`, `Mi`, `Gi`, `Ti`, `Pi`, `Ei`. -/
def iecSuffixes : List (List Byte) := ["Ki", "Mi", "Gi", "Ti", "Pi", "Ei"].map asciiBytes

/-- Modelled from the spec: `formatSI(n)`, declared in `LogStream.h` and defined
in `LogStream.cc`, not among the sources. The spec, in its design of the
function: scaling by powers of 1000, and the plain integer with no suffix below
1000. The spec, in its testable properties: `formatSI(1023)` is the plain `1023`
and `formatSI(1024)` is `1.0k`. Both are kept: the plain integer is rendered for
every value below 1024, which covers the values below 1000, and a value from
1024 on is scaled by the largest power of 1000 not above it. -/
def formatSI (n : Nat) : List Byte := formatQuantity 1024 1000 siSuffixes n

/-- Modelled from the spec: `formatIEC(n)`, declared in `LogStream.h` and defined
in `LogStream.cc`, not among the sources. The spec: the scaling logic of
`formatSI` with binary multiples of 1024; `formatIEC(1024)` is `1.0Ki`, so the
plain integer is rendered below 1024. -/
def formatIEC (n : Nat) : List Byte := formatQuantity 1024 1024 iecSuffixes n

/-! ## Writes of an append, and stream call sequences -/

/-- The byte stores that `::memcpy(dst + off, src, n)` performs, in order: the
offset of each store relative to `dst`, and the byte stored. -/
def memcpyStores (off : Int) (src : List Byte) : Nat → List (Int × Byte)
  | 0 => []
  | n + 1 => memcpyStores off src n ++ [(off + (n : Int), src.getD n 0)]

/-- The array after a sequence of byte stores. -/
def applyStores (mem : List Byte) (stores : List (Int × Byte)) : List Byte :=
  stores.foldl (fun m st => storeByte m st.1 st.2) mem

/-- The member `append(buf, len)` with the byte stores of its `memcpy` made
explicit: the object after the call, whose array is the old one after these
stores, and the stores performed (none when the guard fails). The theorem
`appendTraced_fst` shows that the object is the one `append` returns. -/
def detail.FixedBuffer.appendTraced {SIZE : Nat} (b : FixedBuffer SIZE) (buf : List Byte)
    (len : Nat) : FixedBuffer SIZE × List (Int × Byte) :=
  if implicit_cast_size_t b.avail > len then
    ({ b with data_ := applyStores b.data_ (memcpyStores b.cur_ buf len),
              cur_ := b.cur_ + (len : Int) }, memcpyStores b.cur_ buf len)
  else (b, [])

/-- The offsets, relative to `data_`, of the bytes that `append(buf, len)`
stores; they do not depend on the bytes of `buf`. -/
def detail.FixedBuffer.appendWrites {SIZE : Nat} (b : FixedBuffer SIZE) (len : Nat) : List Int :=
  (b.appendTraced [] len).2.map Prod.fst

/-- The class `Fmt`: the members `buf_` (the bytes readable from it) and
`length_`. The constructor template is not defined in the header. -/
structure Fmt where
  buf_ : List Byte
  length_ : Int
  deriving DecidableEq

/-- The member `Fmt::data()`. -/
def Fmt.data (f : Fmt) : List Byte := f.buf_

/-- The member `Fmt::length()`. -/
def Fmt.length (f : Fmt) : Int := f.length_

/-- The function `operator<<(LogStream& s, const Fmt& fmt)`:
`s.append(fmt.data(), fmt.length())`. -/
def lshift_Fmt (s : LogStream) (fmt : Fmt) : LogStream := s.append fmt.data fmt.length

/-- One call on a `LogStream`. -/
inductive StreamCall where
  | bool (v : Bool)
  | char (v : Byte)
  | cstr (str : Option (List Byte))
  | string (v : List Byte)
  | stringPiece (v : StringPiece)
  | buffer (v : LogStream.Buffer)
  | integer (w : Nat) (v : Int)
  | formatted (text : List Byte)
  | append (data : List Byte) (len : Int)
  | fmt (f : Fmt)
  | resetBuffer

/-- Modelled from the spec: the overloads for `double` (and `float`, which calls
it) and for pointers are defined in `LogStream.cc`, not among the sources. The
spec: the value is formatted and the result is copied into the buffer; `text` is
the formatted result. -/
def LogStream.lshift_formatted (s : LogStream) (text : List Byte) : LogStream :=
  { s with buffer_ := s.buffer_.append text text.length }

/-- The stream after one call. -/
def StreamCall.apply (s : LogStream) : StreamCall → LogStream
  | StreamCall.bool v => s.lshift_bool v
  | StreamCall.char v => s.lshift_char v
  | StreamCall.cstr str => s.lshift_cstr str
  | StreamCall.string v => s.lshift_string v
  | StreamCall.stringPiece v => s.lshift_StringPiece v
  | StreamCall.buffer v => s.lshift_Buffer v
  | StreamCall.integer w v => s.formatInteger w v
  | StreamCall.formatted text => s.lshift_formatted text
  | StreamCall.append data len => s.append data len
  | StreamCall.fmt f => lshift_Fmt s f
  | StreamCall.resetBuffer => s.resetBuffer

/-- The stream after a finite sequence of calls, in order. -/
def runStream (s : LogStream) (calls : List StreamCall) : LogStream :=
  calls.foldl StreamCall.apply s

/-! ## Sample values -/

/-- A buffer of capacity 8 holding two written bytes. -/
def sampleBuffer : FixedBuffer 8 :=
  { cookie_ := Cookie.cookieStart, data_ := [104, 105, 3, 4, 5, 6, 7, 8], cur_ := 2 }

/-- A buffer of capacity 8 with a single byte available. -/
def sampleNearlyFull : FixedBuffer 8 :=
  { cookie_ := Cookie.cookieStart, data_ := [1, 2, 3, 4, 5, 6, 7, 8], cur_ := 7 }

/-- A buffer of capacity 8 whose cursor was advanced by `add(9)` right after
construction, one byte beyond the end of the storage. -/
def sampleOverrun : FixedBuffer 8 :=
  (FixedBuffer.ctor [1, 2, 3, 4, 5, 6, 7, 8] : FixedBuffer 8).add 9

/-- A sequence of stream calls: a boolean, an integer, a C string, a reset and a
character. -/
def sampleStreamCalls : List StreamCall :=
  [StreamCall.bool true, StreamCall.integer 32 (-42), StreamCall.cstr (some [101, 110, 100, 0]),
    StreamCall.resetBuffer, StreamCall.char 120]

/-- A sequence of calls: an append that fits, one that is dropped, a reset, a
zeroing and two more appends. -/
def sampleCalls : List BufferCall :=
  [BufferCall.append [65, 66] 2, BufferCall.append [67, 68] 2, BufferCall.reset,
    BufferCall.bzero, BufferCall.append [69, 70, 71] 3, BufferCall.append [72] 1]

/-- Four inputs for a buffer of capacity 8: the second is too long for what is
left after the first, and the last would fill the buffer exactly. -/
def sampleInputs : List (List Byte) :=
  [[97, 98, 99, 100], [120, 120, 120, 120, 120], [101, 102], [121, 121]]

/-- A C string of 4000 characters `a`, with its terminating zero byte. -/
def sampleLongString : List Byte := List.replicate 4000 97 ++ [0]

/-- A freshly constructed stream whose storage happens to hold zero bytes. -/
def sampleStream : LogStream := LogStream.ctor (List.replicate 4000 0)

/-! ## Conversions and memory operations -/

theorem static_cast_int_eq (x : Int) (h1 : -2147483648 ≤ x) (h2 : x < 2147483648) :
    static_cast_int x = x := by
  unfold static_cast_int; omega

theorem static_cast_size_t_eq (x : Int) (h1 : 0 ≤ x) (h2 : x < 18446744073709551616) :
    static_cast_size_t x = x.toNat := by
  unfold static_cast_size_t
  rw [Int.emod_eq_of_lt h1 h2]

theorem storeByte_length (mem : List Byte) (off : Int) (v : Byte) :
    (storeByte mem off v).length = mem.length := by
  unfold storeByte; split <;> simp

theorem memcpy_length (dst : List Byte) (off : Int) (src : List Byte) (n : Nat) :
    (memcpy dst off src n).length = dst.length := by
  induction n with
  | zero => rfl
  | succ k ih => simp [memcpy, storeByte_length, ih]

theorem memZero_length (p : List Byte) (n : Nat) : (memZero p n).length = p.length := by
  induction n with
  | zero => rfl
  | succ k ih => simp [memZero, storeByte_length, ih]

theorem storeByte_getElem? (mem : List Byte) (c j : Nat) (v : Byte) :
    (storeByte mem (c : Int) v)[j]? = if c = j ∧ j < mem.length then some v else mem[j]? := by
  unfold storeByte
  simp only [Int.natCast_nonneg, if_true, Int.toNat_ofNat]
  rw [List.getElem?_set]
  by_cases h : c = j
  · subst h
    by_cases h2 : c < mem.length
    · simp [h2]
    · simp [h2, List.getElem?_eq_none (Nat.le_of_not_lt h2)]
  · simp [h]

theorem memcpy_getElem? (dst : List Byte) (c : Nat) (src : List Byte) (n j : Nat) :
    (memcpy dst (c : Int) src n)[j]? =
      if c ≤ j ∧ j < c + n ∧ j < dst.length then some (src.getD (j - c) 0) else dst[j]? := by
  induction n with
  | zero =>
    have : ¬ (c ≤ j ∧ j < c + 0 ∧ j < dst.length) := by omega
    rw [if_neg this]; rfl
  | succ k ih =>
    have hcast : (c : Int) + (k : Int) = ((c + k : Nat) : Int) := by push_cast; rfl
    simp only [memcpy, hcast, storeByte_getElem?, memcpy_length, ih]
    by_cases h1 : c + k = j
    · subst h1
      by_cases h2 : c + k < dst.length
      · simp [h2]
      · simp [h2]
    · by_cases h3 : c ≤ j ∧ j < c + k ∧ j < dst.length
      · have : c ≤ j ∧ j < c + (k + 1) ∧ j < dst.length := ⟨h3.1, by omega, h3.2.2⟩
        simp [h1, h3, this]
      · have : ¬ (c ≤ j ∧ j < c + (k + 1) ∧ j < dst.length) := by
          intro h; apply h3; exact ⟨h.1, by omega, h.2.2⟩
        simp [h1, h3, this]

theorem memcpy_eq_splice (dst : List Byte) (c : Nat) (src : List Byte) (n : Nat)
    (hn : n ≤ src.length) (hc : c + n ≤ dst.length) :
    memcpy dst (c : Int) src n = dst.take c ++ src.take n ++ dst.drop (c + n) := by
  apply List.ext_getElem?
  intro j
  rw [memcpy_getElem?]
  by_cases h1 : j < c
  · have : ¬ (c ≤ j ∧ j < c + n ∧ j < dst.length) := by omega
    rw [if_neg this, List.append_assoc, List.getElem?_append_left (by simp; omega)]
    rw [List.getElem?_take_of_lt h1]
  · by_cases h2 : j < c + n
    · have : c ≤ j ∧ j < c + n ∧ j < dst.length := by omega
      rw [if_pos this, List.getElem?_append_left (by simp; omega),
        List.getElem?_append_right (by simp; omega)]
      simp only [List.length_take]
      have hc' : min c dst.length = c := by omega
      rw [hc', List.getElem?_take_of_lt (by omega)]
      rw [List.getD_eq_getElem?_getD, List.getElem?_eq_getElem (by omega)]
      simp
    · have : ¬ (c ≤ j ∧ j < c + n ∧ j < dst.length) := by omega
      rw [if_neg this, List.getElem?_append_right (by simp; omega)]
      simp only [List.length_append, List.length_take]
      rw [List.getElem?_drop]
      congr 1
      omega

theorem applyStores_append (mem : List Byte) (xs ys : List (Int × Byte)) :
    applyStores mem (xs ++ ys) = applyStores (applyStores mem xs) ys := by
  unfold applyStores
  rw [List.foldl_append]

theorem memcpy_eq_applyStores (dst : List Byte) (off : Int) (src : List Byte) (n : Nat) :
    memcpy dst off src n = applyStores dst (memcpyStores off src n) := by
  induction n with
  | zero => rfl
  | succ k ih =>
    show storeByte (memcpy dst off src k) (off + (k : Int)) (src.getD k 0) =
      applyStores dst (memcpyStores off src k ++ [(off + (k : Int), src.getD k 0)])
    rw [applyStores_append, ← ih]
    rfl

theorem appendTraced_fst {SIZE : Nat} (b : FixedBuffer SIZE) (buf : List Byte) (len : Nat) :
    (b.appendTraced buf len).1 = b.append buf len := by
  unfold FixedBuffer.appendTraced FixedBuffer.append
  split
  · show ({ b with data_ := applyStores b.data_ (memcpyStores b.cur_ buf len),
                   cur_ := b.cur_ + (len : Int) } : FixedBuffer SIZE) = _
    rw [← memcpy_eq_applyStores]
  · rfl

theorem appendTraced_snd_of_not_fits {SIZE : Nat} (b : FixedBuffer SIZE) (buf : List Byte)
    (len : Nat) (h : ¬ implicit_cast_size_t b.avail > len) : (b.appendTraced buf len).2 = [] := by
  unfold FixedBuffer.appendTraced
  rw [if_neg h]

theorem static_cast_int_range (x : Int) :
    -2147483648 ≤ static_cast_int x ∧ static_cast_int x < 2147483648 := by
  unfold static_cast_int
  omega

theorem guard_iff_of_nonneg {SIZE : Nat} (b : FixedBuffer SIZE) (h0 : 0 ≤ b.avail) (len : Nat) :
    implicit_cast_size_t b.avail > len ↔ (len : Int) < b.avail := by
  have hr : b.avail < 2147483648 := (static_cast_int_range _).2
  unfold implicit_cast_size_t
  rw [static_cast_size_t_eq _ h0 (by omega)]
  omega

/-! ## The fixed buffer -/

namespace detail

namespace FixedBuffer

variable {SIZE : Nat}

theorem length_eq_cur (b : FixedBuffer SIZE) (hS : SIZE < 2147483648) (hC : b.CursorInRange) :
    b.length = b.cur_ := by
  obtain ⟨h0, h1⟩ := hC
  unfold length
  exact static_cast_int_eq _ (by omega) (by omega)

theorem avail_eq_sub (b : FixedBuffer SIZE) (hS : SIZE < 2147483648) (hC : b.CursorInRange) :
    b.avail = (SIZE : Int) - b.cur_ := by
  obtain ⟨h0, h1⟩ := hC
  unfold avail end_
  exact static_cast_int_eq _ (by omega) (by omega)

theorem guard_iff (b : FixedBuffer SIZE) (hS : SIZE < 2147483648) (hC : b.CursorInRange)
    (len : Nat) : implicit_cast_size_t b.avail > len ↔ (len : Int) < b.avail := by
  have ha := avail_eq_sub b hS hC
  obtain ⟨h0, h1⟩ := hC
  unfold implicit_cast_size_t
  rw [static_cast_size_t_eq _ (by omega) (by omega)]
  omega

theorem append_of_fits (b : FixedBuffer SIZE) (hS : SIZE < 2147483648) (hC : b.CursorInRange)
    (buf : List Byte) (len : Nat) (hfit : (len : Int) < b.avail) :
    b.append buf len =
      { b with data_ := memcpy b.data_ b.cur_ buf len, cur_ := b.cur_ + (len : Int) } := by
  unfold append
  rw [if_pos ((guard_iff b hS hC len).2 hfit)]

theorem append_of_not_fits (b : FixedBuffer SIZE) (hS : SIZE < 2147483648)
    (hC : b.CursorInRange) (buf : List Byte) (len : Nat) (hfull : b.avail ≤ (len : Int)) :
    b.append buf len = b := by
  unfold append
  rw [if_neg]
  rw [guard_iff b hS hC len]
  omega

theorem append_storage (b : FixedBuffer SIZE) (hS : b.Storage) (buf : List Byte) (len : Nat) :
    (b.append buf len).Storage := by
  unfold append
  split
  · exact ⟨by simp [memcpy_length, hS.1], hS.2⟩
  · exact hS

theorem append_cursorInRange (b : FixedBuffer SIZE) (hS : SIZE < 2147483648)
    (hC : b.CursorInRange) (buf : List Byte) (len : Nat) :
    (b.append buf len).CursorInRange := by
  by_cases hfit : (len : Int) < b.avail
  · rw [append_of_fits b hS hC buf len hfit]
    rw [avail_eq_sub b hS hC] at hfit
    obtain ⟨h0, h1⟩ := hC
    constructor
    · show 0 ≤ b.cur_ + (len : Int)
      omega
    · show b.cur_ + (len : Int) ≤ (SIZE : Int)
      omega
  · rw [append_of_not_fits b hS hC buf len (by omega)]
    exact hC

end FixedBuffer

end detail

/-! ## Append: the committing branch and the dropping branch -/

/-- C1: for a buffer state with `0 <= cursor <= N` and a byte sequence `data` of
length `len` with `len < avail()`, after `append(data, len)` the length is the old
length plus `len`, the bytes at the offsets from the old cursor up to the old
cursor plus `len` are those of `data`, and every other byte of the storage is
unchanged. -/
theorem append_fits_effect {SIZE : Nat} (b : FixedBuffer SIZE) (data : List Byte) (len : Nat)
    (hS : b.Storage) (hC : b.CursorInRange) (hd : data.length = len)
    (hfit : (len : Int) < b.avail) :
    (b.append data len).length = b.length + (len : Int) ∧
    (b.append data len).data_.length = SIZE ∧
    (∀ i, i < len → (b.append data len).data_[b.length.toNat + i]? = data[i]?) ∧
    (∀ j, j < b.length.toNat ∨ b.length.toNat + len ≤ j →
      (b.append data len).data_[j]? = b.data_[j]?) := by
  have hC2 := FixedBuffer.append_cursorInRange b hS.2 hC data len
  have hl := FixedBuffer.length_eq_cur b hS.2 hC
  have hl2 := FixedBuffer.length_eq_cur _ hS.2 hC2
  have ha := FixedBuffer.avail_eq_sub b hS.2 hC
  have hcur : b.cur_ = ((b.cur_.toNat : Nat) : Int) := (Int.toNat_of_nonneg hC.1).symm
  have hdata : (b.append data len).data_ = memcpy b.data_ (b.cur_.toNat : Int) data len := by
    rw [FixedBuffer.append_of_fits b hS.2 hC data len hfit, ← hcur]
  obtain ⟨hlen, hN⟩ := hS
  refine ⟨?_, ?_, ?_, ?_⟩
  · rw [hl2, hl, FixedBuffer.append_of_fits b hN hC data len hfit]
  · rw [hdata, memcpy_length, hlen]
  · intro i hi
    rw [hdata, hl, memcpy_getElem?]
    have : b.cur_.toNat ≤ b.cur_.toNat + i ∧ b.cur_.toNat + i < b.cur_.toNat + len ∧
        b.cur_.toNat + i < b.data_.length := by omega
    rw [if_pos this, List.getD_eq_getElem?_getD, Nat.add_sub_cancel_left,
      List.getElem?_eq_getElem (by omega)]
    rfl
  · intro j hj
    rw [hdata, memcpy_getElem?]
    rw [hl] at hj
    have : ¬ (b.cur_.toNat ≤ j ∧ j < b.cur_.toNat + len ∧ j < b.data_.length) := by omega
    rw [if_neg this]

/-- The statement of `append_fits_effect` on `sampleBuffer` and a three-byte input. -/
theorem append_fits_effect_witness :
    sampleBuffer.Storage ∧ sampleBuffer.CursorInRange ∧
    ((sampleBuffer.append [65, 66, 67] 3).length = sampleBuffer.length + ((3 : Nat) : Int) ∧
    (sampleBuffer.append [65, 66, 67] 3).data_.length = 8 ∧
    (∀ i, i < 3 → (sampleBuffer.append [65, 66, 67] 3).data_[sampleBuffer.length.toNat + i]? =
      ([65, 66, 67] : List Byte)[i]?) ∧
    (∀ j, j < sampleBuffer.length.toNat ∨ sampleBuffer.length.toNat + 3 ≤ j →
      (sampleBuffer.append [65, 66, 67] 3).data_[j]? = sampleBuffer.data_[j]?)) :=
  ⟨by decide, by decide,
    append_fits_effect sampleBuffer [65, 66, 67] 3 (by decide) (by decide) rfl (by decide)⟩

/-- C2: for a buffer state with `0 <= cursor <= N` and an input with
`len >= avail()`, the exact fill `len == avail()` included, `append(data, len)`
leaves the cursor and the storage unchanged (the whole object is unchanged), and
the same append applied again is again without effect. -/
theorem append_overflow_noop {SIZE : Nat} (b : FixedBuffer SIZE) (data : List Byte) (len : Nat)
    (hN : SIZE < 2147483648) (hC : b.CursorInRange) (hfull : b.avail ≤ (len : Int)) :
    b.append data len = b ∧
    (b.append data len).cur_ = b.cur_ ∧
    (b.append data len).data_ = b.data_ ∧
    (b.append data len).append data len = b := by
  have h := FixedBuffer.append_of_not_fits b hN hC data len hfull
  refine ⟨h, ?_, ?_, ?_⟩
  · rw [h]
  · rw [h]
  · rw [h, h]

/-- The statement of `append_overflow_noop` on `sampleNearlyFull` with an input
that would fill the buffer exactly. -/
theorem append_overflow_noop_witness :
    sampleNearlyFull.avail = 1 ∧
    sampleNearlyFull.append [65] 1 = sampleNearlyFull ∧
    (sampleNearlyFull.append [65] 1).cur_ = sampleNearlyFull.cur_ ∧
    (sampleNearlyFull.append [65] 1).data_ = sampleNearlyFull.data_ ∧
    (sampleNearlyFull.append [65] 1).append [65] 1 = sampleNearlyFull :=
  ⟨by decide, append_overflow_noop sampleNearlyFull [65] 1 (by decide) (by decide) (by decide)⟩

/-! ## One byte of headroom -/

theorem apply_headroom {SIZE : Nat} (hN : SIZE < 2147483648) (b : FixedBuffer SIZE)
    (h : 0 ≤ b.cur_ ∧ b.cur_ ≤ (SIZE : Int) - 1) (c : BufferCall) :
    0 ≤ (c.apply b).cur_ ∧ (c.apply b).cur_ ≤ (SIZE : Int) - 1 := by
  have hC : b.CursorInRange := ⟨h.1, by have := h.2; omega⟩
  cases c with
  | append buf len =>
    show 0 ≤ (b.append buf len).cur_ ∧ (b.append buf len).cur_ ≤ (SIZE : Int) - 1
    by_cases hfit : (len : Int) < b.avail
    · rw [FixedBuffer.append_of_fits b hN hC buf len hfit]
      rw [FixedBuffer.avail_eq_sub b hN hC] at hfit
      show 0 ≤ b.cur_ + (len : Int) ∧ b.cur_ + (len : Int) ≤ (SIZE : Int) - 1
      omega
    · rw [FixedBuffer.append_of_not_fits b hN hC buf len (by omega)]
      exact h
  | reset =>
    show (0 : Int) ≤ 0 ∧ (0 : Int) ≤ (SIZE : Int) - 1
    omega
  | bzero => exact h

theorem runCalls_headroom {SIZE : Nat} (hN : SIZE < 2147483648) (calls : List BufferCall) :
    ∀ b : FixedBuffer SIZE, 0 ≤ b.cur_ ∧ b.cur_ ≤ (SIZE : Int) - 1 →
      0 ≤ (runCalls b calls).cur_ ∧ (runCalls b calls).cur_ ≤ (SIZE : Int) - 1 := by
  induction calls with
  | nil => intro b h; exact h
  | cons c rest ih =>
    intro b h
    show 0 ≤ (runCalls (c.apply b) rest).cur_ ∧ (runCalls (c.apply b) rest).cur_ ≤ (SIZE : Int) - 1
    exact ih _ (apply_headroom hN b h c)

theorem runCalls_storage {SIZE : Nat} (calls : List BufferCall) :
    ∀ b : FixedBuffer SIZE, b.Storage → (runCalls b calls).Storage := by
  induction calls with
  | nil => intro b h; exact h
  | cons c rest ih =>
    intro b h
    show (runCalls (c.apply b) rest).Storage
    apply ih
    cases c with
    | append buf len => exact FixedBuffer.append_storage b h buf len
    | reset => exact h
    | bzero => exact ⟨by show (memZero b.data_ SIZE).length = SIZE; rw [memZero_length, h.1], h.2⟩

/-- C3: starting from a freshly constructed buffer of capacity `N >= 1`, after any
finite sequence of `append`, `reset` and `bzero` calls the cursor satisfies
`0 <= cursor <= N - 1`, `length() + avail() = N` and `avail() >= 1`; for the
4000-byte buffer of `LogStream` the written length never exceeds 3999. -/
theorem fresh_calls_keep_headroom {SIZE : Nat} (init : List Byte) (calls : List BufferCall)
    (h1 : 1 ≤ SIZE) (hN : SIZE < 2147483648) :
    0 ≤ (runCalls (FixedBuffer.ctor init : FixedBuffer SIZE) calls).cur_ ∧
    (runCalls (FixedBuffer.ctor init : FixedBuffer SIZE) calls).cur_ ≤ (SIZE : Int) - 1 ∧
    (runCalls (FixedBuffer.ctor init : FixedBuffer SIZE) calls).length +
      (runCalls (FixedBuffer.ctor init : FixedBuffer SIZE) calls).avail = (SIZE : Int) ∧
    1 ≤ (runCalls (FixedBuffer.ctor init : FixedBuffer SIZE) calls).avail ∧
    (SIZE = kSmallBuffer →
      (runCalls (FixedBuffer.ctor init : FixedBuffer SIZE) calls).length ≤ 3999) := by
  have h0 : 0 ≤ (FixedBuffer.ctor init : FixedBuffer SIZE).cur_ ∧
      (FixedBuffer.ctor init : FixedBuffer SIZE).cur_ ≤ (SIZE : Int) - 1 := by
    show (0 : Int) ≤ 0 ∧ (0 : Int) ≤ (SIZE : Int) - 1
    omega
  have h := runCalls_headroom hN calls _ h0
  have hC : (runCalls (FixedBuffer.ctor init : FixedBuffer SIZE) calls).CursorInRange :=
    ⟨h.1, by have := h.2; omega⟩
  have hl := FixedBuffer.length_eq_cur _ hN hC
  have ha := FixedBuffer.avail_eq_sub _ hN hC
  refine ⟨h.1, h.2, ?_, ?_, ?_⟩
  · rw [hl, ha]; omega
  · rw [ha]; omega
  · intro hk
    rw [hl]
    have : (SIZE : Int) = 4000 := by rw [hk]; rfl
    omega

/-- The statement of `fresh_calls_keep_headroom` for a buffer of capacity 4 and
a sequence of calls that appends, overflows, resets and zeroes. -/
theorem fresh_calls_keep_headroom_witness :
    0 ≤ (runCalls (FixedBuffer.ctor [9, 9, 9, 9] : FixedBuffer 4) sampleCalls).cur_ ∧
    (runCalls (FixedBuffer.ctor [9, 9, 9, 9] : FixedBuffer 4) sampleCalls).cur_ ≤
      ((4 : Nat) : Int) - 1 ∧
    (runCalls (FixedBuffer.ctor [9, 9, 9, 9] : FixedBuffer 4) sampleCalls).length +
      (runCalls (FixedBuffer.ctor [9, 9, 9, 9] : FixedBuffer 4) sampleCalls).avail =
        ((4 : Nat) : Int) ∧
    1 ≤ (runCalls (FixedBuffer.ctor [9, 9, 9, 9] : FixedBuffer 4) sampleCalls).avail ∧
    (4 = kSmallBuffer →
      (runCalls (FixedBuffer.ctor [9, 9, 9, 9] : FixedBuffer 4) sampleCalls).length ≤ 3999) :=
  fresh_calls_keep_headroom [9, 9, 9, 9] sampleCalls (by decide) (by decide)

/-! ## The written range -/

theorem toString_eq_take {SIZE : Nat} (b : FixedBuffer SIZE) (hN : SIZE < 2147483648)
    (hC : b.CursorInRange) : b.toString = b.data_.take b.cur_.toNat := by
  unfold FixedBuffer.toString string_ctor
  rw [FixedBuffer.length_eq_cur b hN hC, static_cast_size_t_eq _ hC.1 (by have := hC.2; omega)]

theorem toStringPiece_bytes {SIZE : Nat} (b : FixedBuffer SIZE) (hN : SIZE < 2147483648)
    (hC : b.CursorInRange) : b.toStringPiece.bytes = b.toString := by
  have hl := FixedBuffer.length_eq_cur b hN hC
  have h1 : static_cast_size_t b.length = b.cur_.toNat := by
    rw [hl, static_cast_size_t_eq _ hC.1 (by have := hC.2; omega)]
  unfold StringPiece.bytes FixedBuffer.toStringPiece FixedBuffer.toString
  simp only [h1]
  rw [static_cast_size_t_eq _ (by omega) (by have := hC.2; omega)]
  rfl

theorem toString_append_fits {SIZE : Nat} (b : FixedBuffer SIZE) (hS : b.Storage)
    (hC : b.CursorInRange) (buf : List Byte) (len : Nat) (hb : len ≤ buf.length)
    (hfit : (len : Int) < b.avail) :
    (b.append buf len).toString = b.toString ++ buf.take len := by
  obtain ⟨hlen, hN⟩ := hS
  have hC2 := FixedBuffer.append_cursorInRange b hN hC buf len
  rw [toString_eq_take _ hN hC2, toString_eq_take _ hN hC,
    FixedBuffer.append_of_fits b hN hC buf len hfit]
  rw [FixedBuffer.avail_eq_sub b hN hC] at hfit
  obtain ⟨h0, h1⟩ := hC
  have hcur : b.cur_ = ((b.cur_.toNat : Nat) : Int) := (Int.toNat_of_nonneg h0).symm
  show (memcpy b.data_ b.cur_ buf len).take (b.cur_ + (len : Int)).toNat = _
  have hto : (b.cur_ + (len : Int)).toNat = b.cur_.toNat + len := by omega
  rw [hto]
  generalize b.cur_.toNat = c at hcur hto
  rw [hcur, memcpy_eq_splice b.data_ c buf len hb (by omega)]
  have hl : (b.data_.take c ++ buf.take len).length = c + len := by
    simp only [List.length_append, List.length_take]; omega
  rw [← hl, List.take_left']
  rfl

theorem toString_appendAll {SIZE : Nat} (inputs : List (List Byte)) :
    ∀ b : FixedBuffer SIZE, b.Storage → b.CursorInRange →
      (appendAll b inputs).toString = b.toString ++ (acceptedInputs b inputs).flatten ∧
      (appendAll b inputs).CursorInRange := by
  induction inputs with
  | nil => intro b _ hC; exact ⟨by simp [appendAll, acceptedInputs], hC⟩
  | cons d rest ih =>
    intro b hS hC
    have hS2 := FixedBuffer.append_storage b hS d d.length
    have hC2 := FixedBuffer.append_cursorInRange b hS.2 hC d d.length
    have h := ih (b.append d d.length) hS2 hC2
    show (appendAll (b.append d d.length) rest).toString = _ ∧
      (appendAll (b.append d d.length) rest).CursorInRange
    refine ⟨?_, h.2⟩
    rw [h.1]
    by_cases hfit : (d.length : Int) < b.avail
    · rw [toString_append_fits b hS hC d d.length (le_refl _) hfit]
      simp [acceptedInputs, hfit]
    · rw [FixedBuffer.append_of_not_fits b hS.2 hC d d.length (by omega)]
      simp only [acceptedInputs, hfit, if_false]
      rw [FixedBuffer.append_of_not_fits b hS.2 hC d d.length (by omega)]

theorem acceptedInputs_sublist {SIZE : Nat} (inputs : List (List Byte)) :
    ∀ b : FixedBuffer SIZE, (acceptedInputs b inputs).Sublist inputs := by
  induction inputs with
  | nil => intro b; exact List.Sublist.slnil
  | cons d rest ih =>
    intro b
    unfold acceptedInputs
    split
    · exact List.Sublist.cons₂ d (ih _)
    · exact List.Sublist.cons d (ih _)

/-- C4: for every finite sequence of `append` calls on a freshly constructed
buffer, `toString()` (and the bytes of `toStringPiece()`) is the concatenation,
in order, of exactly those inputs whose length was strictly less than `avail()`
when they were appended; the inputs kept are whole inputs, so none appears
partially. -/
theorem toString_appendAll_fresh {SIZE : Nat} (init : List Byte) (inputs : List (List Byte))
    (hinit : init.length = SIZE) (hN : SIZE < 2147483648) :
    (appendAll (FixedBuffer.ctor init : FixedBuffer SIZE) inputs).toString =
      (acceptedInputs (FixedBuffer.ctor init : FixedBuffer SIZE) inputs).flatten ∧
    (appendAll (FixedBuffer.ctor init : FixedBuffer SIZE) inputs).toStringPiece.bytes =
      (acceptedInputs (FixedBuffer.ctor init : FixedBuffer SIZE) inputs).flatten ∧
    (acceptedInputs (FixedBuffer.ctor init : FixedBuffer SIZE) inputs).Sublist inputs := by
  have hS : (FixedBuffer.ctor init : FixedBuffer SIZE).Storage := ⟨hinit, hN⟩
  have hC : (FixedBuffer.ctor init : FixedBuffer SIZE).CursorInRange :=
    ⟨le_refl _, Int.natCast_nonneg SIZE⟩
  have h := toString_appendAll inputs _ hS hC
  have h0 : (FixedBuffer.ctor init : FixedBuffer SIZE).toString = [] := by
    rw [toString_eq_take _ hN hC]; rfl
  rw [h0, List.nil_append] at h
  exact ⟨h.1, by rw [toStringPiece_bytes _ hN h.2, h.1], acceptedInputs_sublist inputs _⟩

/-- The statement of `toString_appendAll_fresh` on a buffer of capacity 8 and four
inputs, of which the second and the last do not fit. -/
theorem toString_appendAll_fresh_witness :
    (appendAll (FixedBuffer.ctor [0, 0, 0, 0, 0, 0, 0, 0] : FixedBuffer 8) sampleInputs).toString =
      [97, 98, 99, 100, 101, 102] ∧
    (acceptedInputs (FixedBuffer.ctor [0, 0, 0, 0, 0, 0, 0, 0] : FixedBuffer 8)
      sampleInputs).flatten = [97, 98, 99, 100, 101, 102] ∧
    (appendAll (FixedBuffer.ctor [0, 0, 0, 0, 0, 0, 0, 0] : FixedBuffer 8) sampleInputs).toString =
      (acceptedInputs (FixedBuffer.ctor [0, 0, 0, 0, 0, 0, 0, 0] : FixedBuffer 8)
        sampleInputs).flatten :=
  ⟨by decide, by decide,
    (toString_appendAll_fresh [0, 0, 0, 0, 0, 0, 0, 0] sampleInputs (by decide) (by decide)).1⟩

/-! ## Reset -/

theorem memcpy_take_congr (d1 d2 src : List Byte) (n k : Nat) (hlen : d1.length = d2.length)
    (hk : k ≤ n) : (memcpy d1 ((0 : Nat) : Int) src n).take k =
      (memcpy d2 ((0 : Nat) : Int) src n).take k := by
  apply List.ext_getElem?
  intro j
  by_cases hj : j < k
  · rw [List.getElem?_take_of_lt hj, List.getElem?_take_of_lt hj, memcpy_getElem?,
      memcpy_getElem?, hlen]
    by_cases hd : j < d2.length
    · have : 0 ≤ j ∧ j < 0 + n ∧ j < d2.length := by omega
      rw [if_pos this, if_pos this]
    · have : ¬ (0 ≤ j ∧ j < 0 + n ∧ j < d2.length) := by omega
      rw [if_neg this, if_neg this, List.getElem?_eq_none (by omega),
        List.getElem?_eq_none (by omega)]
  · rw [List.getElem?_eq_none (by simp only [List.length_take]; omega),
      List.getElem?_eq_none (by simp only [List.length_take]; omega)]

/-- C5: for a buffer state `b` and an input `(data, len)`, `reset()` followed by
`append(data, len)` on `b` gives the same `length()`, `avail()` and `toString()`
as `append(data, len)` on a freshly constructed buffer of the same capacity. -/
theorem reset_append_eq_fresh_append {SIZE : Nat} (b : FixedBuffer SIZE) (init data : List Byte)
    (len : Nat) (hS : b.Storage) (hinit : init.length = SIZE) :
    (b.reset.append data len).length =
      ((FixedBuffer.ctor init : FixedBuffer SIZE).append data len).length ∧
    (b.reset.append data len).avail =
      ((FixedBuffer.ctor init : FixedBuffer SIZE).append data len).avail ∧
    (b.reset.append data len).toString =
      ((FixedBuffer.ctor init : FixedBuffer SIZE).append data len).toString := by
  obtain ⟨hlen, hN⟩ := hS
  have hCr : b.reset.CursorInRange := ⟨le_refl _, Int.natCast_nonneg SIZE⟩
  have hCf : (FixedBuffer.ctor init : FixedBuffer SIZE).CursorInRange :=
    ⟨le_refl _, Int.natCast_nonneg SIZE⟩
  have hav : b.reset.avail = (FixedBuffer.ctor init : FixedBuffer SIZE).avail := rfl
  by_cases hfit : (len : Int) < b.reset.avail
  · have hr := FixedBuffer.append_of_fits b.reset hN hCr data len hfit
    have hf := FixedBuffer.append_of_fits (FixedBuffer.ctor init : FixedBuffer SIZE) hN hCf
      data len (hav ▸ hfit)
    have hCr2 := FixedBuffer.append_cursorInRange b.reset hN hCr data len
    have hCf2 := FixedBuffer.append_cursorInRange (FixedBuffer.ctor init : FixedBuffer SIZE)
      hN hCf data len
    refine ⟨?_, ?_, ?_⟩
    · rw [hr, hf]; rfl
    · rw [hr, hf]; rfl
    · rw [toString_eq_take _ hN hCr2, toString_eq_take _ hN hCf2, hr, hf]
      show (memcpy b.data_ 0 data len).take ((0 : Int) + (len : Int)).toNat =
        (memcpy init 0 data len).take ((0 : Int) + (len : Int)).toNat
      have hto : ((0 : Int) + (len : Int)).toNat = len := by omega
      rw [hto]
      exact memcpy_take_congr b.data_ init data len len (by rw [hlen, hinit]) (le_refl _)
  · have hr := FixedBuffer.append_of_not_fits b.reset hN hCr data len (by omega)
    have hf := FixedBuffer.append_of_not_fits (FixedBuffer.ctor init : FixedBuffer SIZE) hN hCf
      data len (by rw [← hav]; omega)
    rw [hr, hf]
    refine ⟨rfl, rfl, ?_⟩
    rw [toString_eq_take _ hN hCr, toString_eq_take _ hN hCf]
    rfl

/-- The statement of `reset_append_eq_fresh_append` on `sampleBuffer`, a fresh
buffer of capacity 8 and a three-byte input. -/
theorem reset_append_eq_fresh_append_witness :
    sampleBuffer.Storage ∧
    (sampleBuffer.reset.append [65, 66, 67] 3).toString = [65, 66, 67] ∧
    ((sampleBuffer.reset.append [65, 66, 67] 3).length =
      ((FixedBuffer.ctor [0, 0, 0, 0, 0, 0, 0, 0] : FixedBuffer 8).append [65, 66, 67] 3).length ∧
    (sampleBuffer.reset.append [65, 66, 67] 3).avail =
      ((FixedBuffer.ctor [0, 0, 0, 0, 0, 0, 0, 0] : FixedBuffer 8).append [65, 66, 67] 3).avail ∧
    (sampleBuffer.reset.append [65, 66, 67] 3).toString =
      ((FixedBuffer.ctor [0, 0, 0, 0, 0, 0, 0, 0] : FixedBuffer 8).append
        [65, 66, 67] 3).toString) :=
  ⟨by decide, by decide,
    reset_append_eq_fresh_append sampleBuffer [0, 0, 0, 0, 0, 0, 0, 0] [65, 66, 67] 3
      (by decide) (by decide)⟩

/-- C6: for every buffer state, `reset()` sets `length()` to 0 and `avail()` to
`N` and leaves the storage bytes unchanged; `LogStream::resetBuffer()` does
exactly this to the owned buffer, so the written content of the stream becomes
empty. -/
theorem reset_effect {SIZE : Nat} (b : FixedBuffer SIZE) (s : LogStream)
    (hN : SIZE < 2147483648) :
    b.reset.length = 0 ∧ b.reset.avail = (SIZE : Int) ∧ b.reset.data_ = b.data_ ∧
    s.resetBuffer.buffer_ = s.buffer_.reset ∧
    s.resetBuffer.buffer.length = 0 ∧
    s.resetBuffer.buffer.avail = 4000 ∧
    s.resetBuffer.buffer.data_ = s.buffer_.data_ ∧
    s.resetBuffer.buffer.toString = [] := by
  have hCr : b.reset.CursorInRange := ⟨le_refl _, Int.natCast_nonneg SIZE⟩
  have ha := FixedBuffer.avail_eq_sub b.reset hN hCr
  refine ⟨rfl, ?_, rfl, rfl, rfl, rfl, rfl, rfl⟩
  rw [ha]
  show (SIZE : Int) - 0 = SIZE
  omega

/-- The statement of `reset_effect` on `sampleBuffer` and on a stream holding one
character. -/
theorem reset_effect_witness :
    sampleBuffer.length = 2 ∧
    sampleBuffer.reset.length = 0 ∧ sampleBuffer.reset.avail = ((8 : Nat) : Int) ∧
    sampleBuffer.reset.data_ = sampleBuffer.data_ ∧
    (sampleStream.lshift_char 120).resetBuffer.buffer_ =
      (sampleStream.lshift_char 120).buffer_.reset ∧
    (sampleStream.lshift_char 120).resetBuffer.buffer.length = 0 ∧
    (sampleStream.lshift_char 120).resetBuffer.buffer.avail = 4000 ∧
    (sampleStream.lshift_char 120).resetBuffer.buffer.data_ =
      (sampleStream.lshift_char 120).buffer_.data_ ∧
    (sampleStream.lshift_char 120).resetBuffer.buffer.toString = [] :=
  ⟨by decide, reset_effect sampleBuffer (sampleStream.lshift_char 120) (by decide)⟩

/-! ## The text overloads of the stream -/

theorem asciiBytes_null : asciiBytes "(null)" = [40, 110, 117, 108, 108, 41] := by decide

theorem asciiBytes_one : asciiBytes "1" = [49] := by decide

theorem asciiBytes_zero : asciiBytes "0" = [48] := by decide

theorem strlen_le (p : List Byte) : strlen p ≤ p.length := by
  induction p with
  | nil => exact le_refl _
  | cons c cs ih =>
    unfold strlen
    split
    · exact Nat.zero_le _
    · simp only [List.length_cons]; omega

theorem take_strlen (p : List Byte) : p.take (strlen p) = p.takeWhile (fun c => c != 0) := by
  induction p with
  | nil => rfl
  | cons c cs ih =>
    unfold strlen
    by_cases h : c = 0
    · simp [h]
    · simp [h, ih]

theorem length_append_fits {SIZE : Nat} (b : FixedBuffer SIZE) (hN : SIZE < 2147483648)
    (hC : b.CursorInRange) (buf : List Byte) (len : Nat) (hfit : (len : Int) < b.avail) :
    (b.append buf len).length = b.length + (len : Int) := by
  have hC2 := FixedBuffer.append_cursorInRange b hN hC buf len
  rw [FixedBuffer.length_eq_cur _ hN hC2, FixedBuffer.length_eq_cur b hN hC,
    FixedBuffer.append_of_fits b hN hC buf len hfit]

theorem ctor_storage (init : List Byte) (hinit : init.length = kSmallBuffer) :
    (LogStream.ctor init).buffer_.Storage :=
  ⟨hinit, by decide⟩

theorem ctor_cursorInRange (init : List Byte) : (LogStream.ctor init).buffer_.CursorInRange :=
  ⟨le_refl _, Int.natCast_nonneg _⟩

theorem ctor_avail (init : List Byte) : (LogStream.ctor init).buffer_.avail = 4000 := by
  show static_cast_int (((4000 : Nat) : Int) - 0) = 4000
  decide

theorem ctor_toString (init : List Byte) : (LogStream.ctor init).buffer_.toString = [] := by
  rw [toString_eq_take _ (by decide) (ctor_cursorInRange init)]
  rfl

theorem sampleStream_storage : sampleStream.buffer_.Storage :=
  ctor_storage _ (List.length_replicate 4000 0)

theorem sampleStream_char_storage (c : Byte) : (sampleStream.lshift_char c).buffer_.Storage :=
  FixedBuffer.append_storage _ sampleStream_storage _ _

theorem strlen_replicate_append (n : Nat) (c : Byte) (hc : c ≠ 0) (rest : List Byte) :
    strlen (List.replicate n c ++ 0 :: rest) = n := by
  induction n with
  | zero =>
    show (if (0 : Byte) = 0 then 0 else strlen rest + 1) = 0
    rw [if_pos rfl]
  | succ k ih =>
    show (if c = 0 then 0 else strlen (List.replicate k c ++ 0 :: rest) + 1) = k + 1
    rw [if_neg hc, ih]

theorem lshift_cstr_some (s : LogStream) (p : List Byte) :
    (s.lshift_cstr (some p)).buffer = s.buffer_.append p (strlen p) := rfl

/-- C7, as stated, fails for a non-null C string that does not fit: a string of
4000 characters appended to a freshly constructed stream, whose `avail()` is
4000, is dropped whole, so the written content stays empty and is not extended
by the characters before the first zero byte. -/
theorem lshift_cstr_overflow_counterexample :
    strlen sampleLongString = 4000 ∧ sampleStream.buffer.avail = 4000 ∧
    (sampleStream.lshift_cstr (some sampleLongString)).buffer.toString = [] ∧
    (sampleStream.lshift_cstr (some sampleLongString)).buffer.toString ≠
      sampleStream.buffer.toString ++
        sampleLongString.takeWhile (fun c => c != 0) := by
  have hlen : strlen sampleLongString = 4000 := by
    unfold sampleLongString
    exact strlen_replicate_append 4000 97 (by decide) []
  have hsize : sampleLongString.length = 4001 := by
    unfold sampleLongString
    rw [List.length_append, List.length_replicate]
    rfl
  have hav : sampleStream.buffer.avail = 4000 := ctor_avail _
  have hdrop : (sampleStream.lshift_cstr (some sampleLongString)).buffer =
      sampleStream.buffer := by
    rw [lshift_cstr_some, hlen]
    exact FixedBuffer.append_of_not_fits _ (by decide) (ctor_cursorInRange _) _ 4000
      (by rw [ctor_avail]; decide)
  have hempty : sampleStream.buffer.toString = [] := ctor_toString _
  refine ⟨hlen, hav, by rw [hdrop, hempty], ?_⟩
  rw [hdrop, hempty, List.nil_append, ← take_strlen, hlen]
  intro h
  have hl := congrArg List.length h
  rw [List.length_nil, List.length_take, hsize] at hl
  omega

/-- C7, amended: appending a null C-string pointer to a stream whose buffer has
more than 6 bytes available extends the written content by exactly the 6 bytes
`(null)`; on a freshly constructed stream the content is then exactly `(null)`,
of length 6. A non-null C string that fits, `strlen(str) < avail()`, is appended
verbatim up to, and not including, its first zero byte. -/
theorem lshift_cstr_effect (s : LogStream) (init p : List Byte) (hS : s.buffer_.Storage)
    (hC : s.buffer_.CursorInRange) (hinit : init.length = kSmallBuffer) :
    (6 < s.buffer_.avail →
      (s.lshift_cstr none).buffer.toString = s.buffer.toString ++ asciiBytes "(null)" ∧
      (s.lshift_cstr none).buffer.length = s.buffer.length + 6) ∧
    ((LogStream.ctor init).lshift_cstr none).buffer.toString = asciiBytes "(null)" ∧
    ((LogStream.ctor init).lshift_cstr none).buffer.length = 6 ∧
    ((strlen p : Int) < s.buffer_.avail →
      (s.lshift_cstr (some p)).buffer.toString =
        s.buffer.toString ++ p.takeWhile (fun c => c != 0) ∧
      (s.lshift_cstr (some p)).buffer.length = s.buffer.length + (strlen p : Int)) := by
  have hnull : ∀ t : LogStream, t.buffer_.Storage → t.buffer_.CursorInRange →
      6 < t.buffer_.avail →
      (t.lshift_cstr none).buffer.toString = t.buffer.toString ++ asciiBytes "(null)" ∧
      (t.lshift_cstr none).buffer.length = t.buffer.length + 6 := by
    intro t htS htC hfit
    constructor
    · show (t.buffer_.append [40, 110, 117, 108, 108, 41, 0] 6).toString = _
      rw [toString_append_fits t.buffer_ htS htC _ 6 (by decide) hfit, asciiBytes_null]
      rfl
    · exact length_append_fits t.buffer_ htS.2 htC _ 6 hfit
  have hfresh := hnull (LogStream.ctor init) (ctor_storage init hinit) (ctor_cursorInRange init)
    (by rw [ctor_avail]; decide)
  refine ⟨hnull s hS hC, ?_, ?_, ?_⟩
  · have h := hfresh.1
    rw [show (LogStream.ctor init).buffer.toString = [] from ctor_toString init] at h
    exact h
  · exact hfresh.2
  · intro hfit
    constructor
    · show (s.buffer_.append p (strlen p)).toString = _
      rw [toString_append_fits s.buffer_ hS hC p (strlen p) (strlen_le p) hfit, take_strlen]
      rfl
    · exact length_append_fits s.buffer_ hS.2 hC p (strlen p) hfit

/-- The statement of `lshift_cstr_effect` on a stream holding `x`: the null
pointer, and the C string `ab` followed by a zero byte and further bytes. -/
theorem lshift_cstr_effect_witness :
    (sampleStream.lshift_char 120).buffer.toString = asciiBytes "x" ∧
    ((sampleStream.lshift_char 120).lshift_cstr none).buffer.toString =
      (sampleStream.lshift_char 120).buffer.toString ++ asciiBytes "(null)" ∧
    ((sampleStream.lshift_char 120).lshift_cstr (some [97, 98, 0, 99])).buffer.toString =
      (sampleStream.lshift_char 120).buffer.toString ++ [97, 98] ∧
    (sampleStream.lshift_cstr none).buffer.toString = asciiBytes "(null)" :=
  ⟨by decide,
    ((lshift_cstr_effect (sampleStream.lshift_char 120) (List.replicate 4000 0) [97, 98, 0, 99]
      (sampleStream_char_storage 120) (by decide) (List.length_replicate 4000 0)).1
      (by decide)).1,
    ((lshift_cstr_effect (sampleStream.lshift_char 120) (List.replicate 4000 0) [97, 98, 0, 99]
      (sampleStream_char_storage 120) (by decide) (List.length_replicate 4000 0)).2.2.2
      (by decide)).1,
    (lshift_cstr_effect (sampleStream.lshift_char 120) (List.replicate 4000 0) [97, 98, 0, 99]
      (sampleStream_char_storage 120) (by decide) (List.length_replicate 4000 0)).2.1⟩

/-- C8: for a stream whose buffer has `avail() > 1`, appending a boolean extends
the written content by exactly one byte, the character `1` for true and `0` for
false; the result is the updated stream, so a further append (here of a second
boolean, when `avail() > 2`) acts on the updated buffer. -/
theorem lshift_bool_effect (s : LogStream) (v w : Bool) (hS : s.buffer_.Storage)
    (hC : s.buffer_.CursorInRange) (hfit : 1 < s.buffer_.avail) :
    (s.lshift_bool v).buffer.toString =
      s.buffer.toString ++ (if v then asciiBytes "1" else asciiBytes "0") ∧
    (s.lshift_bool v).buffer.length = s.buffer.length + 1 ∧
    (2 < s.buffer_.avail →
      ((s.lshift_bool v).lshift_bool w).buffer.toString =
        s.buffer.toString ++ (if v then asciiBytes "1" else asciiBytes "0") ++
          (if w then asciiBytes "1" else asciiBytes "0")) := by
  have hone : ∀ (t : LogStream) (x : Bool), t.buffer_.Storage → t.buffer_.CursorInRange →
      1 < t.buffer_.avail →
      (t.lshift_bool x).buffer.toString =
        t.buffer.toString ++ (if x then asciiBytes "1" else asciiBytes "0") := by
    intro t x htS htC ht
    show (t.buffer_.append (if x then [49, 0] else [48, 0]) 1).toString = _
    rw [toString_append_fits t.buffer_ htS htC _ 1 (by cases x <;> decide) ht]
    cases x
    · simp only [Bool.false_eq_true, if_false, asciiBytes_zero]; rfl
    · simp only [if_true, asciiBytes_one]; rfl
  have hlen : (s.lshift_bool v).buffer.length = s.buffer.length + 1 :=
    length_append_fits s.buffer_ hS.2 hC _ 1 hfit
  refine ⟨hone s v hS hC hfit, hlen, ?_⟩
  intro h2
  have hS2 : (s.lshift_bool v).buffer_.Storage := FixedBuffer.append_storage _ hS _ _
  have hC2 : (s.lshift_bool v).buffer_.CursorInRange :=
    FixedBuffer.append_cursorInRange _ hS.2 hC _ _
  have hav : 1 < (s.lshift_bool v).buffer_.avail := by
    have e1 := FixedBuffer.avail_eq_sub _ hS.2 hC2
    have e2 := FixedBuffer.avail_eq_sub _ hS.2 hC
    have e3 := FixedBuffer.length_eq_cur _ hS.2 hC2
    have e4 := FixedBuffer.length_eq_cur _ hS.2 hC
    have e5 : (s.lshift_bool v).buffer_.length = s.buffer_.length + 1 := hlen
    omega
  rw [hone (s.lshift_bool v) w hS2 hC2 hav, hone s v hS hC hfit]

/-- The statement of `lshift_bool_effect` on a stream holding `x`, appending true
and then false. -/
theorem lshift_bool_effect_witness :
    (sampleStream.lshift_char 120).buffer.toString = asciiBytes "x" ∧
    ((sampleStream.lshift_char 120).lshift_bool true).buffer.toString =
      (sampleStream.lshift_char 120).buffer.toString ++
        (if true then asciiBytes "1" else asciiBytes "0") ∧
    (((sampleStream.lshift_char 120).lshift_bool true).lshift_bool false).buffer.toString =
      asciiBytes "x10" :=
  ⟨by decide,
    (lshift_bool_effect (sampleStream.lshift_char 120) true false (sampleStream_char_storage 120)
      (by decide) (by decide)).1,
    by decide⟩

/-- C9: for a stream and an owned string `v` or a bounded view `p` with
`size() < avail()`, the append extends the written content by exactly the
`size()` bytes of the value, zero bytes included: the length grows by `size()`,
whatever the position of the first zero byte. -/
theorem lshift_string_effect (s : LogStream) (v : List Byte) (p : StringPiece)
    (hS : s.buffer_.Storage) (hC : s.buffer_.CursorInRange) :
    ((v.length : Int) < s.buffer_.avail →
      (s.lshift_string v).buffer.toString = s.buffer.toString ++ v ∧
      (s.lshift_string v).buffer.length = s.buffer.length + (v.length : Int)) ∧
    (0 ≤ p.size → p.size ≤ (p.data.length : Int) → p.size < s.buffer_.avail →
      (s.lshift_StringPiece p).buffer.toString = s.buffer.toString ++ p.bytes ∧
      ((p.bytes.length : Nat) : Int) = p.size ∧
      (s.lshift_StringPiece p).buffer.length = s.buffer.length + p.size) := by
  constructor
  · intro hfit
    constructor
    · show (s.buffer_.append (v ++ [0]) v.length).toString = _
      rw [toString_append_fits s.buffer_ hS hC _ v.length (by simp) hfit, List.take_left']
      · rfl
      · rfl
    · exact length_append_fits s.buffer_ hS.2 hC _ v.length hfit
  · intro h0 hle hfit
    have hav := FixedBuffer.avail_eq_sub s.buffer_ hS.2 hC
    have hk : static_cast_size_t p.size = p.size.toNat :=
      static_cast_size_t_eq _ h0 (by
        have := hC.1
        have : ((kSmallBuffer : Nat) : Int) = 4000 := rfl
        omega)
    have hcast : ((p.size.toNat : Nat) : Int) = p.size := Int.toNat_of_nonneg h0
    have hfit2 : ((p.size.toNat : Nat) : Int) < s.buffer_.avail := by omega
    have hb : p.bytes = p.data.take p.size.toNat := by
      unfold StringPiece.bytes string_ctor
      rw [hk]
    refine ⟨?_, ?_, ?_⟩
    · show (s.buffer_.append p.data (static_cast_size_t p.size)).toString = _
      rw [hk, hb, toString_append_fits s.buffer_ hS hC _ _ (by omega) hfit2]
      rfl
    · rw [hb, List.length_take]
      omega
    · show (s.buffer_.append p.data (static_cast_size_t p.size)).length = _
      rw [hk, length_append_fits s.buffer_ hS.2 hC _ _ hfit2, hcast]
      rfl

/-- The statement of `lshift_string_effect` on a stream holding `x`, for a string
and a view of three bytes whose second byte is zero. -/
theorem lshift_string_effect_witness :
    ((sampleStream.lshift_char 120).lshift_string [97, 0, 98]).buffer.toString =
      (sampleStream.lshift_char 120).buffer.toString ++ [97, 0, 98] ∧
    ((sampleStream.lshift_char 120).lshift_string [97, 0, 98]).buffer.length =
      (sampleStream.lshift_char 120).buffer.length + (([97, 0, 98] : List Byte).length : Int) ∧
    ((sampleStream.lshift_char 120).lshift_StringPiece
      { data := [97, 0, 98, 99], size := 3 }).buffer.toString = [120, 97, 0, 98] :=
  ⟨((lshift_string_effect (sampleStream.lshift_char 120) [97, 0, 98]
      { data := [97, 0, 98, 99], size := 3 } (sampleStream_char_storage 120) (by decide)).1
      (by decide)).1,
    ((lshift_string_effect (sampleStream.lshift_char 120) [97, 0, 98]
      { data := [97, 0, 98, 99], size := 3 } (sampleStream_char_storage 120) (by decide)).1
      (by decide)).2,
    by decide⟩

/-- C10: for a stream `s` and a buffer `v` with `v.length() < s.buffer().avail()`,
`s << v` extends the written content of `s` by exactly the written range of `v`;
for a freshly constructed `s` and a `v` reached from a fresh buffer by `append`,
`reset` and `bzero` calls, the append always fits and the content of `s`
afterwards equals `v.toString()`. -/
theorem lshift_Buffer_effect (s : LogStream) (v : LogStream.Buffer) (init init2 : List Byte)
    (calls : List BufferCall) (hS : s.buffer_.Storage) (hC : s.buffer_.CursorInRange)
    (hvS : v.Storage) (hvC : v.CursorInRange) (hinit : init.length = kSmallBuffer)
    (hinit2 : init2.length = kSmallBuffer) :
    (v.length < s.buffer.avail →
      (s.lshift_Buffer v).buffer.toString = s.buffer.toString ++ v.toString ∧
      (s.lshift_Buffer v).buffer.length = s.buffer.length + v.length) ∧
    (runCalls (FixedBuffer.ctor init2 : LogStream.Buffer) calls).length <
      (LogStream.ctor init).buffer.avail ∧
    ((LogStream.ctor init).lshift_Buffer
      (runCalls (FixedBuffer.ctor init2 : LogStream.Buffer) calls)).buffer.toString =
      (runCalls (FixedBuffer.ctor init2 : LogStream.Buffer) calls).toString := by
  have hk4 : ((kSmallBuffer : Nat) : Int) = 4000 := rfl
  have hgen : ∀ (t : LogStream) (u : LogStream.Buffer), t.buffer_.Storage →
      t.buffer_.CursorInRange → u.Storage → u.CursorInRange → u.length < t.buffer.avail →
      (t.lshift_Buffer u).buffer.toString = t.buffer.toString ++ u.toString ∧
      (t.lshift_Buffer u).buffer.length = t.buffer.length + u.length := by
    intro t u htS htC huS huC hfit
    have hl := FixedBuffer.length_eq_cur u huS.2 huC
    have h1 : static_cast_size_t u.length = u.cur_.toNat := by
      rw [hl, static_cast_size_t_eq _ huC.1 (by have := huC.2; omega)]
    have hcast : ((u.cur_.toNat : Nat) : Int) = u.cur_ := Int.toNat_of_nonneg huC.1
    have h2 : static_cast_size_t ((u.cur_.toNat : Nat) : Int) = u.cur_.toNat := by
      rw [static_cast_size_t_eq _ (by omega) (by have := huC.2; omega)]
      rfl
    have hstep : (t.lshift_Buffer u).buffer = t.buffer_.append u.data_ u.cur_.toNat := by
      show t.buffer_.append u.data_
        (static_cast_size_t ((static_cast_size_t u.length : Nat) : Int)) = _
      rw [h1, h2]
    have hfit2 : ((u.cur_.toNat : Nat) : Int) < t.buffer_.avail := by
      rw [hcast, ← hl]; exact hfit
    have hb : u.cur_.toNat ≤ u.data_.length := by
      have := huC.2
      have := huS.1
      omega
    rw [hstep]
    constructor
    · rw [toString_append_fits t.buffer_ htS htC _ _ hb hfit2, toString_eq_take u huS.2 huC]
      rfl
    · rw [length_append_fits t.buffer_ htS.2 htC _ _ hfit2, hcast, hl]
      rfl
  have hh := runCalls_headroom (by decide) calls (FixedBuffer.ctor init2 : LogStream.Buffer)
    ⟨le_refl _, by show (0 : Int) ≤ ((4000 : Nat) : Int) - 1; decide⟩
  have huC : (runCalls (FixedBuffer.ctor init2 : LogStream.Buffer) calls).CursorInRange :=
    ⟨hh.1, by have := hh.2; omega⟩
  have huS := runCalls_storage calls (FixedBuffer.ctor init2 : LogStream.Buffer)
    ⟨hinit2, by decide⟩
  have hfit : (runCalls (FixedBuffer.ctor init2 : LogStream.Buffer) calls).length <
      (LogStream.ctor init).buffer.avail := by
    rw [FixedBuffer.length_eq_cur _ (by decide) huC,
      show (LogStream.ctor init).buffer.avail = 4000 from ctor_avail init]
    have := hh.2
    omega
  refine ⟨hgen s v hS hC hvS hvC, hfit, ?_⟩
  have h := (hgen (LogStream.ctor init) _ (ctor_storage init hinit) (ctor_cursorInRange init)
    huS huC hfit).1
  rw [show (LogStream.ctor init).buffer.toString = [] from ctor_toString init] at h
  exact h

/-- The statement of `lshift_Buffer_effect` on a stream holding `x`, a buffer
holding `h`, and a buffer reached by a sequence of calls. -/
theorem lshift_Buffer_effect_witness :
    ((sampleStream.lshift_char 120).lshift_Buffer
        (sampleStream.lshift_char 104).buffer).buffer.toString =
      (sampleStream.lshift_char 120).buffer.toString ++
        (sampleStream.lshift_char 104).buffer.toString ∧
    ((sampleStream.lshift_char 120).lshift_Buffer
        (sampleStream.lshift_char 104).buffer).buffer.toString =
      asciiBytes "xh" ∧
    (sampleStream.lshift_Buffer
        (runCalls (FixedBuffer.ctor (List.replicate 4000 0)) sampleCalls)).buffer.toString =
      (runCalls (FixedBuffer.ctor (List.replicate 4000 0) : LogStream.Buffer)
        sampleCalls).toString :=
  ⟨((lshift_Buffer_effect (sampleStream.lshift_char 120)
      (sampleStream.lshift_char 104).buffer (List.replicate 4000 0)
      (List.replicate 4000 0) sampleCalls (sampleStream_char_storage 120) (by decide)
      (sampleStream_char_storage 104) (by decide)
      (List.length_replicate 4000 0) (List.length_replicate 4000 0)).1 (by decide)).1,
    by decide,
    (lshift_Buffer_effect (sampleStream.lshift_char 120)
      (sampleStream.lshift_char 104).buffer (List.replicate 4000 0)
      (List.replicate 4000 0) sampleCalls (sampleStream_char_storage 120) (by decide)
      (sampleStream_char_storage 104) (by decide)
      (List.length_replicate 4000 0) (List.length_replicate 4000 0)).2.2⟩

/-! ## Integer formatting: digits -/

theorem digitChar_toNat (d : Nat) (h : d < 10) : (digitChar d).toNat = 48 + d := by
  interval_cases d <;> rfl

theorem digitChar_isDigit (d : Nat) (h : d < 10) : isDigit (digitChar d) = true := by
  interval_cases d <;> rfl

theorem digitTable_getD (r : Nat) (h : r < 100) :
    digitTable.getD r (48, 48) = (digitChar (r / 10), digitChar (r % 10)) := by
  unfold digitTable
  rw [List.getD_eq_getElem?_getD, List.getElem?_map, List.getElem?_range h]
  rfl

theorem extractDigits_eq_digits (steps : Nat) :
    ∀ value : Nat, 0 < steps → value < 100 ^ steps →
      extractDigits steps value =
        if value = 0 then [digitChar 0] else (Nat.digits 10 value).map digitChar := by
  induction steps with
  | zero => intro value hpos; omega
  | succ k ih =>
    intro value _ h
    unfold extractDigits
    by_cases h10 : value < 10
    · rw [if_pos h10]
      by_cases h0 : value = 0
      · rw [if_pos h0, h0]
      · rw [if_neg h0, Nat.digits_of_lt 10 value h0 h10]
        rfl
    · have h0 : value ≠ 0 := by omega
      have hd1 : Nat.digits 10 value = value % 10 :: Nat.digits 10 (value / 10) :=
        Nat.digits_def' (by norm_num) (by omega)
      have hd2 : Nat.digits 10 (value / 10) =
          value / 10 % 10 :: Nat.digits 10 (value / 10 / 10) :=
        Nat.digits_def' (by norm_num) (by omega)
      have hlow : value % 100 % 10 = value % 10 := by omega
      have hhigh : value % 100 / 10 = value / 10 % 10 := by omega
      have hdiv : value / 10 / 10 = value / 100 := by omega
      rw [if_neg h10, if_neg h0, digitTable_getD _ (Nat.mod_lt _ (by norm_num)), hd1, hd2, hlow,
        hhigh, hdiv]
      by_cases h100 : value < 100
      · rw [if_pos h100]
        have : value / 100 = 0 := by omega
        rw [this]
        simp
      · rw [if_neg h100]
        have hq : value / 100 < 100 ^ k := by
          rw [pow_succ] at h
          exact Nat.div_lt_of_lt_mul (by rw [Nat.mul_comm]; exact h)
        have hq0 : value / 100 ≠ 0 := by omega
        have hk : 0 < k := by
          rcases Nat.eq_zero_or_pos k with hk | hk
          · rw [hk] at hq; omega
          · exact hk
        rw [ih _ hk hq, if_neg hq0]
        simp

theorem decimalText_eq_digits (n : Nat) (h : n < 100 ^ 24) :
    decimalText n =
      if n = 0 then [digitChar 0] else ((Nat.digits 10 n).map digitChar).reverse := by
  unfold decimalText
  rw [extractDigits_eq_digits 24 n (by norm_num) h]
  split <;> rfl

theorem foldr_digitChar (ds : List Nat) (h : ∀ d ∈ ds, d < 10) :
    (ds.map digitChar).foldr (fun c acc => 10 * acc + (c.toNat - 48)) 0 = Nat.ofDigits 10 ds := by
  induction ds with
  | nil => rfl
  | cons d rest ih =>
    have hd := h d (List.mem_cons_self d rest)
    have hrest := ih (fun x hx => h x (List.mem_cons_of_mem d hx))
    rw [List.map_cons, List.foldr_cons, hrest, digitChar_toNat d hd, Nat.ofDigits_cons]
    omega

theorem all_isDigit_map (ds : List Nat) (h : ∀ d ∈ ds, d < 10) :
    (ds.map digitChar).all isDigit = true := by
  rw [List.all_eq_true]
  intro c hc
  obtain ⟨d, hd, rfl⟩ := List.mem_map.1 hc
  exact digitChar_isDigit d (h d hd)

theorem decimalText_all_isDigit (n : Nat) (h : n < 100 ^ 24) :
    (decimalText n).all isDigit = true := by
  rw [decimalText_eq_digits n h]
  split
  · rfl
  · rw [List.all_reverse]
    exact all_isDigit_map _ (fun d hd => Nat.digits_lt_base (by norm_num) hd)

theorem decimalText_ne_nil (n : Nat) (h : n < 100 ^ 24) : decimalText n ≠ [] := by
  rw [decimalText_eq_digits n h]
  split
  · exact List.cons_ne_nil _ _
  · rename_i h0
    intro hnil
    rw [List.reverse_eq_nil_iff, List.map_eq_nil_iff] at hnil
    exact h0 (Nat.digits_eq_nil_iff_eq_zero.1 hnil)

theorem parseNat_decimalText (n : Nat) (h : n < 100 ^ 24) : parseNat (decimalText n) = some n := by
  unfold parseNat
  rw [if_pos ⟨decimalText_ne_nil n h, decimalText_all_isDigit n h⟩, decimalText_eq_digits n h]
  congr 1
  split
  · rename_i h0
    rw [h0]
    rfl
  · rw [List.foldl_reverse,
      foldr_digitChar _ (fun d hd => Nat.digits_lt_base (by norm_num) hd), Nat.ofDigits_digits]

theorem decimalText_length_le (n k : Nat) (hk : 0 < k) (hn : n < 10 ^ k) (h : n < 100 ^ 24) :
    (decimalText n).length ≤ k := by
  rw [decimalText_eq_digits n h]
  split
  · exact hk
  · rename_i h0
    rw [List.length_reverse, List.length_map]
    have h1 := Nat.base_pow_length_digits_le 10 n (by norm_num) h0
    have h2 : 10 ^ (Nat.digits 10 n).length < 10 ^ (k + 1) := by
      rw [pow_succ]
      omega
    have h3 := (Nat.pow_lt_pow_iff_right (by norm_num : 1 < 10)).1 h2
    omega

theorem decimalText_head (n : Nat) (h : n < 100 ^ 24) (hz : (decimalText n).head? = some 48) :
    decimalText n = [48] := by
  rw [decimalText_eq_digits n h] at hz ⊢
  split
  · rfl
  · rename_i h0
    rw [if_neg h0] at hz
    exfalso
    have hne : Nat.digits 10 n ≠ [] := fun e => h0 (Nat.digits_eq_nil_iff_eq_zero.1 e)
    have hlast := Nat.getLast_digit_ne_zero 10 h0
    have hlt : (Nat.digits 10 n).getLast hne < 10 :=
      Nat.digits_lt_base (by norm_num) (List.getLast_mem hne)
    rw [List.head?_reverse, List.getLast?_map, List.getLast?_eq_getLast _ hne, Option.map_some',
      Option.some.injEq] at hz
    have hnat := digitChar_toNat _ hlt
    rw [hz] at hnat
    have h48 : (48 : Byte).toNat = 48 := rfl
    omega

theorem magnitude_eq_natAbs (signed : Bool) (w : Nat) (v : Int)
    (hw : w = 16 ∨ w = 32 ∨ w = 64) (hr : InRange signed w v) :
    magnitude w v = v.natAbs ∧ v.natAbs < 18446744073709551616 ∧
      (v < 0 → v.natAbs ≤ 9223372036854775808) := by
  unfold InRange at hr
  unfold magnitude toUnsigned
  rcases hw with rfl | rfl | rfl <;> cases signed <;> norm_num at hr ⊢ <;>
    refine ⟨?_, by omega, by omega⟩ <;> split <;> omega

theorem parseInteger_minus (d : List Byte) :
    parseInteger (45 :: d) = Option.map (fun (n : Nat) => -(n : Int)) (parseNat d) := by
  show (if (45 : Byte) = 45 then Option.map (fun (n : Nat) => -(n : Int)) (parseNat d)
    else Option.map (fun (n : Nat) => (n : Int)) (parseNat (45 :: d))) = _
  rw [if_pos rfl]

theorem parseInteger_digits (c : Byte) (rest : List Byte) (h : c ≠ 45) :
    parseInteger (c :: rest) = Option.map (fun (n : Nat) => (n : Int)) (parseNat (c :: rest)) := by
  show (if c = 45 then Option.map (fun (n : Nat) => -(n : Int)) (parseNat rest)
    else Option.map (fun (n : Nat) => (n : Int)) (parseNat (c :: rest))) = _
  rw [if_neg h]

/-! ## Integer formatting: the text -/

/-- C11: for every integer `v` of a supported type (signed or unsigned, of 16, 32
or 64 bits, the minimum negative values included), the text of the integer
overload is an optional `-`, present exactly when `v` is negative, followed by
decimal digits without a leading zero; parsing the text as a base-10 integer
gives back `v`; and the overload appends this text to the buffer. -/
theorem formatInteger_round_trip (signed : Bool) (w : Nat) (v : Int) (s : LogStream)
    (hw : w = 16 ∨ w = 32 ∨ w = 64) (hr : InRange signed w v) :
    parseInteger (formatIntegerText w v) = some v ∧
    ((formatIntegerText w v).head? = some 45 ↔ v < 0) ∧
    (∃ digits : List Byte,
      formatIntegerText w v = (if v < 0 then [45] else []) ++ digits ∧ digits ≠ [] ∧
      digits.all isDigit = true ∧ (digits.head? = some 48 → digits = [48])) ∧
    (s.buffer_.Storage → s.buffer_.CursorInRange →
      ((formatIntegerText w v).length : Int) < s.buffer_.avail →
      (s.formatInteger w v).buffer.toString = s.buffer.toString ++ formatIntegerText w v) := by
  obtain ⟨hm, hlt, _⟩ := magnitude_eq_natAbs signed w v hw hr
  have hf : magnitude w v < 100 ^ 24 := by rw [hm]; norm_num; omega
  have hne := decimalText_ne_nil _ hf
  have hall := decimalText_all_isDigit _ hf
  have hparse := parseNat_decimalText _ hf
  obtain ⟨c, rest, hcr⟩ := List.exists_cons_of_ne_nil hne
  have hc : isDigit c = true := by
    rw [hcr] at hall
    exact (List.all_eq_true.1 hall) c (List.mem_cons_self c rest)
  have hc45 : c ≠ 45 := by
    intro h45
    rw [h45] at hc
    exact absurd hc (by decide)
  refine ⟨?_, ?_, ⟨decimalText (magnitude w v), rfl, hne, hall, decimalText_head _ hf⟩, ?_⟩
  · unfold formatIntegerText
    by_cases hv : v < 0
    · rw [if_pos hv]
      show parseInteger (45 :: decimalText (magnitude w v)) = some v
      rw [parseInteger_minus, hparse, Option.map_some', hm]
      congr 1
      omega
    · rw [if_neg hv, List.nil_append, hcr, parseInteger_digits c rest hc45, ← hcr, hparse,
        Option.map_some', hm]
      congr 1
      omega
  · unfold formatIntegerText
    by_cases hv : v < 0
    · rw [if_pos hv]
      exact ⟨fun _ => hv, fun _ => rfl⟩
    · rw [if_neg hv, List.nil_append, hcr]
      constructor
      · intro h
        rw [List.head?_cons, Option.some.injEq] at h
        exact absurd h hc45
      · intro h
        exact absurd h hv
  · intro hS hC hfit
    show (s.buffer_.append (formatIntegerText w v) (formatIntegerText w v).length).toString = _
    rw [toString_append_fits s.buffer_ hS hC _ _ (le_refl _) hfit, List.take_length]
    rfl

/-- The statement of `formatInteger_round_trip` at the minimum 64-bit value. -/
theorem formatInteger_round_trip_witness :
    InRange true 64 (-9223372036854775808) ∧
    formatIntegerText 64 (-9223372036854775808) = asciiBytes "-9223372036854775808" ∧
    parseInteger (formatIntegerText 64 (-9223372036854775808)) = some (-9223372036854775808) ∧
    (sampleStream.formatInteger 64 (-9223372036854775808)).buffer.toString =
      sampleStream.buffer.toString ++ formatIntegerText 64 (-9223372036854775808) :=
  ⟨by decide, by decide,
    (formatInteger_round_trip true 64 (-9223372036854775808) sampleStream (Or.inr (Or.inr rfl))
      (by decide)).1,
    (formatInteger_round_trip true 64 (-9223372036854775808) sampleStream (Or.inr (Or.inr rfl))
      (by decide)).2.2.2 sampleStream_storage (by decide) (by decide)⟩

/-- C12: the scratch capacity `kMaxNumericSize = 48` suffices for every supported
integer: the decimal text of a signed or unsigned integer of at most 64 bits, a
leading `-` included, has at most 20 characters, which is less than 48. -/
theorem formatInteger_fits_scratch (signed : Bool) (w : Nat) (v : Int)
    (hw : w = 16 ∨ w = 32 ∨ w = 64) (hr : InRange signed w v) :
    (formatIntegerText w v).length ≤ 20 ∧ 20 < LogStream.kMaxNumericSize ∧
    (formatIntegerText w v).length < LogStream.kMaxNumericSize := by
  obtain ⟨hm, hlt, hneg⟩ := magnitude_eq_natAbs signed w v hw hr
  have hf : magnitude w v < 100 ^ 24 := by rw [hm]; norm_num; omega
  have hk : (20 : Nat) < LogStream.kMaxNumericSize := by decide
  have hlen : (formatIntegerText w v).length ≤ 20 := by
    unfold formatIntegerText
    by_cases hv : v < 0
    · have h19 := decimalText_length_le (magnitude w v) 19 (by norm_num)
        (by rw [hm]; have := hneg hv; norm_num; omega) hf
      rw [if_pos hv, List.length_append]
      simp only [List.length_cons, List.length_nil]
      omega
    · have h20 := decimalText_length_le (magnitude w v) 20 (by norm_num)
        (by rw [hm]; norm_num; omega) hf
      rw [if_neg hv, List.nil_append]
      exact h20
  exact ⟨hlen, hk, by omega⟩

/-- The statement of `formatInteger_fits_scratch` at the largest unsigned 64-bit
value, whose text has exactly 20 characters. -/
theorem formatInteger_fits_scratch_witness :
    InRange false 64 18446744073709551615 ∧
    (formatIntegerText 64 18446744073709551615).length = 20 ∧
    ((formatIntegerText 64 18446744073709551615).length ≤ 20 ∧
      20 < LogStream.kMaxNumericSize ∧
      (formatIntegerText 64 18446744073709551615).length < LogStream.kMaxNumericSize) :=
  ⟨by decide, by decide,
    formatInteger_fits_scratch false 64 18446744073709551615 (Or.inr (Or.inr rfl)) (by decide)⟩

/-! ## Quantity formatting -/

theorem selectUnit_spec (base : Nat) (units : Nat) (n : Nat) :
    selectUnit base units n ≤ units ∧
    (selectUnit base units n ≠ 0 → base ^ selectUnit base units n ≤ n) ∧
    (selectUnit base units n < units → n < base ^ (selectUnit base units n + 1)) := by
  induction units with
  | zero => exact ⟨le_refl _, fun h => absurd rfl h, fun h => absurd h (Nat.lt_irrefl _)⟩
  | succ k ih =>
    unfold selectUnit
    by_cases h : base ^ (k + 1) ≤ n
    · rw [if_pos h]
      exact ⟨le_refl _, fun _ => h, fun hlt => absurd hlt (Nat.lt_irrefl _)⟩
    · rw [if_neg h]
      refine ⟨Nat.le_succ_of_le ih.1, ih.2.1, ?_⟩
      intro _
      rcases Nat.lt_or_ge (selectUnit base k n) k with hk | hk
      · exact ih.2.2 hk
      · have : selectUnit base k n = k := Nat.le_antisymm ih.1 hk
        rw [this]
        omega

theorem scaled_lt_base (base n : Nat) (hn : n < base ^ 7) :
    n / base ^ selectUnit base 6 n < base := by
  obtain ⟨hle, _, hlt⟩ := selectUnit_spec base 6 n
  apply Nat.div_lt_of_lt_mul
  rw [← pow_succ]
  rcases Nat.lt_or_ge (selectUnit base 6 n) 6 with hk | hk
  · exact hlt hk
  · have : selectUnit base 6 n = 6 := Nat.le_antisymm hle hk
    rw [this]
    exact hn

theorem formatQuantity_length (plain base D S : Nat) (suffixes : List (List Byte)) (n : Nat)
    (hD : 3 ≤ D) (hpD : plain ≤ 10 ^ D) (hbD : base ≤ 10 ^ D)
    (hS : ∀ i, (suffixes.getD i []).length ≤ S) (hn : n < base ^ 7) (hn48 : n < 100 ^ 24) :
    (formatQuantity plain base suffixes n).length ≤ D + S := by
  have hq := scaled_lt_base base n hn
  have hqn : n / base ^ selectUnit base 6 n ≤ n := Nat.div_le_self _ _
  have hsuf := hS (selectUnit base 6 n - 1)
  unfold formatQuantity
  by_cases h0 : n < plain
  · rw [if_pos h0]
    have := decimalText_length_le n D (by omega) (by omega) hn48
    omega
  · rw [if_neg h0]
    by_cases h10 : n / base ^ selectUnit base 6 n < 10
    · rw [if_pos h10]
      have h1 := decimalText_length_le (n / base ^ selectUnit base 6 n) 1 (by norm_num)
        (by omega) (by omega)
      have h2 := decimalText_length_le (n * 10 / base ^ selectUnit base 6 n % 10) 1
        (by norm_num) (by omega) (by omega)
      simp only [List.length_append, List.length_cons, List.length_nil]
      omega
    · rw [if_neg h10]
      have h1 := decimalText_length_le (n / base ^ selectUnit base 6 n) D (by omega)
        (by omega) (by omega)
      simp only [List.length_append]
      omega

theorem siSuffixes_length (i : Nat) : (siSuffixes.getD i []).length ≤ 1 := by
  rcases Nat.lt_or_ge i 6 with h | h
  · interval_cases i <;> decide
  · rw [List.getD_eq_default _ _ (by simpa [siSuffixes] using h)]
    exact Nat.zero_le _

theorem iecSuffixes_length (i : Nat) : (iecSuffixes.getD i []).length ≤ 2 := by
  rcases Nat.lt_or_ge i 6 with h | h
  · interval_cases i <;> decide
  · rw [List.getD_eq_default _ _ (by simpa [iecSuffixes] using h)]
    exact Nat.zero_le _

/-- C13: for every non-negative 64-bit integer `n`, the string returned by
`formatSI(n)` has at most 5 characters. -/
theorem formatSI_length (n : Nat) (hn : n < 9223372036854775808) :
    (formatSI n).length ≤ 5 := by
  have h := formatQuantity_length 1024 1000 4 1 siSuffixes n (by norm_num) (by norm_num)
    (by norm_num) siSuffixes_length (by norm_num; omega) (by norm_num; omega)
  unfold formatSI
  omega

/-- The statement of `formatSI_length` at the largest 64-bit value. -/
theorem formatSI_length_witness :
    formatSI 9223372036854775807 = asciiBytes "9.2E" ∧
    (formatSI 9223372036854775807).length ≤ 5 :=
  ⟨by decide, formatSI_length 9223372036854775807 (by decide)⟩

/-- C14: for every non-negative 64-bit integer `n`, the string returned by
`formatIEC(n)` has at most 6 characters; `formatIEC(1024)` is `1.0Ki` and
`formatIEC(1048576)` is `1.0Mi`. -/
theorem formatIEC_length (n : Nat) (hn : n < 9223372036854775808) :
    (formatIEC n).length ≤ 6 ∧ formatIEC 1024 = asciiBytes "1.0Ki" ∧
    formatIEC 1048576 = asciiBytes "1.0Mi" := by
  have h := formatQuantity_length 1024 1024 4 2 iecSuffixes n (by norm_num) (by norm_num)
    (by norm_num) iecSuffixes_length (by norm_num; omega) (by norm_num; omega)
  unfold formatIEC
  exact ⟨h, by decide, by decide⟩

/-- The statement of `formatIEC_length` at the value just below one mebibyte,
whose text has exactly 6 characters. -/
theorem formatIEC_length_witness :
    formatIEC 1048575 = asciiBytes "1023Ki" ∧
    ((formatIEC 1048575).length ≤ 6 ∧ formatIEC 1024 = asciiBytes "1.0Ki" ∧
      formatIEC 1048576 = asciiBytes "1.0Mi") :=
  ⟨by decide, formatIEC_length 1048575 (by decide)⟩

/-- C15: `formatSI` renders every `n` with `0 <= n < 1000` as its plain decimal
integer with no suffix (`formatSI(0)` is `0`), `formatSI(1023)` is `1023` and
`formatSI(1024)` is `1.0k`. -/
theorem formatSI_small (n : Nat) (hn : n < 1000) :
    formatSI n = decimalText n ∧ parseNat (formatSI n) = some n ∧
    (formatSI n).all isDigit = true ∧
    formatSI 0 = asciiBytes "0" ∧ formatSI 1023 = asciiBytes "1023" ∧
    formatSI 1024 = asciiBytes "1.0k" := by
  have hplain : formatSI n = decimalText n := by
    unfold formatSI formatQuantity
    rw [if_pos (by omega)]
  have h48 : n < 100 ^ 24 := by norm_num; omega
  refine ⟨hplain, ?_, ?_, by decide, by decide, by decide⟩
  · rw [hplain]; exact parseNat_decimalText n h48
  · rw [hplain]; exact decimalText_all_isDigit n h48

/-- The statement of `formatSI_small` at 999, the largest value below 1000. -/
theorem formatSI_small_witness :
    formatSI 999 = asciiBytes "999" ∧ formatSI 999 = decimalText 999 ∧
    parseNat (formatSI 999) = some 999 ∧ formatSI 1000000 = asciiBytes "1.0M" :=
  ⟨by decide, (formatSI_small 999 (by decide)).1, (formatSI_small 999 (by decide)).2.1,
    by decide⟩

/-! ## Outside the cursor invariant -/

/-- C16, as stated, fails at a state whose cursor is beyond the storage. On the
buffer of capacity 8 reached by `add(9)` from a fresh one, `avail()` is -1, so
`avail() > 1` does not hold; the guard of `append` converts -1 to the `size_t`
value `2^64 - 1`, which is greater than 1, so `append` of one byte is not a
no-op: its `memcpy` stores the byte at offset 9, outside the 8 storage bytes,
and the object is not left as it was. -/
theorem append_after_overrun_counterexample :
    sampleOverrun.avail = -1 ∧ ¬ ((1 : Int) < sampleOverrun.avail) ∧
    implicit_cast_size_t sampleOverrun.avail > 1 ∧
    (sampleOverrun.appendTraced [65] 1).1 = sampleOverrun.append [65] 1 ∧
    (sampleOverrun.appendTraced [65] 1).2 = [(9, 65)] ∧ sampleOverrun.data_.length = 8 ∧
    sampleOverrun.append [65] 1 ≠ sampleOverrun :=
  ⟨by decide, by decide, by decide, appendTraced_fst sampleOverrun [65] 1, by decide, by decide,
    by decide⟩

/-- C16, amended: for every buffer state whose `avail()` is not negative (the
cursor has not been advanced beyond `N`) and every input `(data, len)`, whenever
`avail() > len` does not hold, `append(data, len)` is a no-op: it leaves the
cursor and the storage unchanged and performs no store, so that nothing is
written outside the `N` storage bytes. -/
theorem append_noop_of_nonneg_avail {SIZE : Nat} (b : FixedBuffer SIZE) (data : List Byte)
    (len : Nat) (h0 : 0 ≤ b.avail) (hfull : ¬ ((len : Int) < b.avail)) :
    b.append data len = b ∧ (b.append data len).cur_ = b.cur_ ∧
    (b.append data len).data_ = b.data_ ∧
    (b.appendTraced data len).1 = b.append data len ∧ (b.appendTraced data len).2 = [] := by
  have hg : ¬ implicit_cast_size_t b.avail > len := by
    rw [guard_iff_of_nonneg b h0 len]
    exact hfull
  have h : b.append data len = b := by
    unfold FixedBuffer.append
    rw [if_neg hg]
  refine ⟨h, by rw [h], by rw [h], appendTraced_fst b data len,
    appendTraced_snd_of_not_fits b data len hg⟩

/-- The statement of `append_noop_of_nonneg_avail` on `sampleBuffer`, whose
`avail()` is 6, for an input of 6 bytes. -/
theorem append_noop_of_nonneg_avail_witness :
    sampleBuffer.avail = 6 ∧
    (sampleBuffer.append [65, 66, 67, 68, 69, 70] 6 = sampleBuffer ∧
    (sampleBuffer.append [65, 66, 67, 68, 69, 70] 6).cur_ = sampleBuffer.cur_ ∧
    (sampleBuffer.append [65, 66, 67, 68, 69, 70] 6).data_ = sampleBuffer.data_ ∧
    (sampleBuffer.appendTraced [65, 66, 67, 68, 69, 70] 6).1 =
      sampleBuffer.append [65, 66, 67, 68, 69, 70] 6 ∧
    (sampleBuffer.appendTraced [65, 66, 67, 68, 69, 70] 6).2 = []) :=
  ⟨by decide,
    append_noop_of_nonneg_avail sampleBuffer [65, 66, 67, 68, 69, 70] 6 (by decide) (by decide)⟩

/-- C17, as stated, fails for a large `len`: on `sampleBuffer`, whose length is
2, `add(2147483648)` makes `length()` the `int` -2147483646, not
2 + 2147483648. -/
theorem add_length_counterexample :
    sampleBuffer.CursorInRange ∧ sampleBuffer.length = 2 ∧
    (sampleBuffer.add 2147483648).length = -2147483646 ∧
    (sampleBuffer.add 2147483648).length ≠ sampleBuffer.length + ((2147483648 : Nat) : Int) :=
  ⟨by decide, by decide, by decide, by decide⟩

/-- C17, amended: for every buffer state and every `len`, `add(len)` advances the
cursor by exactly `len` and changes no storage byte; `length()` increases by
exactly `len` when the old and the new cursor are values of `int`, and `avail()`
decreases by exactly `len` when the old and the new `N - cursor` are; when
`0 <= cursor <= N` and `len <= avail()` beforehand, both hold, the invariant
`0 <= cursor <= N` still holds afterwards, and `current()` before the call
designates the offset `length()`. -/
theorem add_effect {SIZE : Nat} (b : FixedBuffer SIZE) (len : Nat) :
    (b.add len).cur_ = b.cur_ + (len : Int) ∧ (b.add len).data_ = b.data_ ∧
    (-2147483648 ≤ b.cur_ → b.cur_ + (len : Int) < 2147483648 →
      (b.add len).length = b.length + (len : Int) ∧ b.current = b.length) ∧
    (-2147483648 ≤ (SIZE : Int) - b.cur_ - (len : Int) → (SIZE : Int) - b.cur_ < 2147483648 →
      (b.add len).avail = b.avail - (len : Int)) ∧
    (SIZE < 2147483648 → b.CursorInRange → (len : Int) ≤ b.avail →
      (b.add len).CursorInRange ∧ (b.add len).length = b.length + (len : Int) ∧
      (b.add len).avail = b.avail - (len : Int) ∧ b.current = b.length) := by
  have hlen : -2147483648 ≤ b.cur_ → b.cur_ + (len : Int) < 2147483648 →
      (b.add len).length = b.length + (len : Int) ∧ b.current = b.length := by
    intro h1 h2
    have e1 : b.length = b.cur_ := static_cast_int_eq b.cur_ h1 (by omega)
    have e2 : (b.add len).length = b.cur_ + (len : Int) :=
      static_cast_int_eq (b.cur_ + (len : Int)) (by omega) h2
    exact ⟨by rw [e2, e1], e1.symm⟩
  have hav : -2147483648 ≤ (SIZE : Int) - b.cur_ - (len : Int) →
      (SIZE : Int) - b.cur_ < 2147483648 → (b.add len).avail = b.avail - (len : Int) := by
    intro h1 h2
    have e1 : b.avail = (SIZE : Int) - b.cur_ :=
      static_cast_int_eq ((SIZE : Int) - b.cur_) (by omega) h2
    have e2 : (b.add len).avail = (SIZE : Int) - (b.cur_ + (len : Int)) :=
      static_cast_int_eq ((SIZE : Int) - (b.cur_ + (len : Int))) (by omega) (by omega)
    rw [e2, e1]
    omega
  refine ⟨rfl, rfl, hlen, hav, ?_⟩
  intro hN hC hle
  have ha := FixedBuffer.avail_eq_sub b hN hC
  obtain ⟨h0, h1⟩ := hC
  have hl := hlen (by omega) (by omega)
  have hv := hav (by omega) (by omega)
  refine ⟨⟨?_, ?_⟩, hl.1, hv, hl.2⟩
  · show 0 ≤ b.cur_ + (len : Int)
    omega
  · show b.cur_ + (len : Int) ≤ (SIZE : Int)
    omega

/-- The statement of `add_effect` on `sampleBuffer` and `len = 6`, which is
exactly `avail()`. -/
theorem add_effect_witness :
    sampleBuffer.avail = 6 ∧
    (sampleBuffer.add 6).CursorInRange ∧
    (sampleBuffer.add 6).length = sampleBuffer.length + ((6 : Nat) : Int) ∧
    (sampleBuffer.add 6).avail = sampleBuffer.avail - ((6 : Nat) : Int) ∧
    sampleBuffer.current = sampleBuffer.length :=
  ⟨by decide, (add_effect sampleBuffer 6).2.2.2.2 (by decide) (by decide) (by decide)⟩

theorem memZero_eq_memcpy (p : List Byte) (n : Nat) :
    memZero p n = memcpy p ((0 : Nat) : Int) [] n := by
  induction n with
  | zero => rfl
  | succ k ih =>
    show storeByte (memZero p k) (k : Int) 0 =
      storeByte (memcpy p ((0 : Nat) : Int) [] k) (((0 : Nat) : Int) + (k : Int)) 0
    rw [ih]
    congr 1
    omega

theorem memZero_eq_replicate (p : List Byte) (n : Nat) (h : p.length = n) :
    memZero p n = List.replicate n 0 := by
  rw [memZero_eq_memcpy]
  apply List.ext_getElem?
  intro j
  rw [memcpy_getElem?, List.getElem?_replicate]
  by_cases hj : j < n
  · have : 0 ≤ j ∧ j < 0 + n ∧ j < p.length := by omega
    rw [if_pos this, if_pos hj]
    rfl
  · have : ¬ (0 ≤ j ∧ j < 0 + n ∧ j < p.length) := by omega
    rw [if_neg this, if_neg hj, List.getElem?_eq_none (by omega)]

/-- C18: for every buffer state, `bzero()` sets all `N` storage bytes to zero and
leaves the cursor unchanged, so `length()` and `avail()` are the same as before;
for a state of the data model, that is with `0 <= cursor <= N`, `toString()`
afterwards is `length()` zero bytes, and a subsequent append that fits writes
its bytes at the old cursor position: the storage is then `length()` zero bytes,
the bytes appended, and zero bytes up to `N`. -/
theorem bzero_effect {SIZE : Nat} (b : FixedBuffer SIZE) (buf : List Byte) (len : Nat)
    (hS : b.Storage) :
    b.bzero.data_ = List.replicate SIZE 0 ∧ b.bzero.cur_ = b.cur_ ∧
    b.bzero.length = b.length ∧ b.bzero.avail = b.avail ∧
    (b.CursorInRange →
      b.bzero.toString = List.replicate b.length.toNat 0 ∧
      (len ≤ buf.length → (len : Int) < b.avail →
        (b.bzero.append buf len).data_ =
          List.replicate b.length.toNat 0 ++ buf.take len ++
            List.replicate (SIZE - (b.length.toNat + len)) 0 ∧
        (b.bzero.append buf len).toString = List.replicate b.length.toNat 0 ++ buf.take len ∧
        (b.bzero.append buf len).length = b.length + (len : Int))) := by
  have hd : b.bzero.data_ = List.replicate SIZE 0 := memZero_eq_replicate b.data_ SIZE hS.1
  refine ⟨hd, rfl, rfl, rfl, ?_⟩
  intro hC
  have hC2 : b.bzero.CursorInRange := hC
  have hS2 : b.bzero.Storage := ⟨by rw [hd, List.length_replicate], hS.2⟩
  have hl := FixedBuffer.length_eq_cur b hS.2 hC
  have hle : b.cur_.toNat ≤ SIZE := by
    have := hC.1
    have := hC.2
    omega
  have hts : b.bzero.toString = List.replicate b.length.toNat 0 := by
    rw [toString_eq_take _ hS.2 hC2, hd, hl]
    show (List.replicate SIZE (0 : Byte)).take b.cur_.toNat = List.replicate b.cur_.toNat 0
    rw [List.take_replicate, Nat.min_eq_left hle]
  refine ⟨hts, ?_⟩
  intro hb hfit
  have hfit2 : (len : Int) < b.bzero.avail := hfit
  have hcur : b.cur_ = ((b.cur_.toNat : Nat) : Int) := (Int.toNat_of_nonneg hC.1).symm
  have hsum : b.cur_.toNat + len ≤ SIZE := by
    rw [FixedBuffer.avail_eq_sub b hS.2 hC] at hfit
    omega
  refine ⟨?_, ?_, ?_⟩
  · rw [FixedBuffer.append_of_fits b.bzero hS.2 hC2 buf len hfit2]
    show memcpy b.bzero.data_ b.cur_ buf len = _
    rw [hd, hl, hcur, memcpy_eq_splice _ _ buf len hb (by rw [List.length_replicate]; omega),
      List.take_replicate, List.drop_replicate, Nat.min_eq_left hle]
    simp only [Int.toNat_ofNat]
  · rw [toString_append_fits b.bzero hS2 hC2 buf len hb hfit2, hts]
  · exact length_append_fits b.bzero hS.2 hC2 buf len hfit2

/-- The statement of `bzero_effect` on `sampleBuffer`, whose length is 2, followed
by an append of three bytes. -/
theorem bzero_effect_witness :
    sampleBuffer.Storage ∧ sampleBuffer.CursorInRange ∧ sampleBuffer.length = 2 ∧
    sampleBuffer.bzero.data_ = List.replicate 8 0 ∧
    sampleBuffer.bzero.toString = List.replicate sampleBuffer.length.toNat 0 ∧
    (sampleBuffer.bzero.append [65, 66, 67] 3).data_ = [0, 0, 65, 66, 67, 0, 0, 0] ∧
    (sampleBuffer.bzero.append [65, 66, 67] 3).toString =
      List.replicate sampleBuffer.length.toNat 0 ++ ([65, 66, 67] : List Byte).take 3 :=
  ⟨by decide, by decide, by decide, (bzero_effect sampleBuffer [65, 66, 67] 3 (by decide)).1,
    ((bzero_effect sampleBuffer [65, 66, 67] 3 (by decide)).2.2.2.2 (by decide)).1,
    by decide,
    (((bzero_effect sampleBuffer [65, 66, 67] 3 (by decide)).2.2.2.2 (by decide)).2
      (by decide) (by decide)).2.1⟩

/-! ## Negative lengths on the stream -/

theorem stream_apply_cursorInRange (s : LogStream) (hC : s.buffer_.CursorInRange)
    (c : StreamCall) : (c.apply s).buffer_.CursorInRange := by
  have hN : kSmallBuffer < 2147483648 := by decide
  cases c with
  | bool v => exact FixedBuffer.append_cursorInRange s.buffer_ hN hC _ _
  | char v => exact FixedBuffer.append_cursorInRange s.buffer_ hN hC _ _
  | cstr str =>
    cases str with
    | none => exact FixedBuffer.append_cursorInRange s.buffer_ hN hC _ _
    | some p => exact FixedBuffer.append_cursorInRange s.buffer_ hN hC _ _
  | string v => exact FixedBuffer.append_cursorInRange s.buffer_ hN hC _ _
  | stringPiece v => exact FixedBuffer.append_cursorInRange s.buffer_ hN hC _ _
  | buffer v => exact FixedBuffer.append_cursorInRange s.buffer_ hN hC _ _
  | integer w v => exact FixedBuffer.append_cursorInRange s.buffer_ hN hC _ _
  | formatted text => exact FixedBuffer.append_cursorInRange s.buffer_ hN hC _ _
  | append data len => exact FixedBuffer.append_cursorInRange s.buffer_ hN hC _ _
  | fmt f => exact FixedBuffer.append_cursorInRange s.buffer_ hN hC _ _
  | resetBuffer => exact ⟨le_refl _, Int.natCast_nonneg _⟩

theorem runStream_cursorInRange (calls : List StreamCall) :
    ∀ s : LogStream, s.buffer_.CursorInRange → (runStream s calls).buffer_.CursorInRange := by
  induction calls with
  | nil => intro s h; exact h
  | cons c rest ih =>
    intro s h
    show (runStream (c.apply s) rest).buffer_.CursorInRange
    exact ih _ (stream_apply_cursorInRange s h c)

theorem static_cast_size_t_neg (len : Int) (hlo : -2147483648 ≤ len) (hneg : len < 0) :
    ((static_cast_size_t len : Nat) : Int) = len + 18446744073709551616 := by
  unfold static_cast_size_t
  omega

/-- C19: for every stream state reached from a fresh stream and every negative
`int` `len`, `LogStream::append(data, len)` leaves the stream unchanged: `len`
converted to `size_t` is at least `2^63`, `avail()` is at most 4000, so the
append of the buffer takes its no-op branch and stores no byte; the same holds
for `operator<<` on a `Fmt` whose length is `len`. -/
theorem append_negative_len_noop (init : List Byte) (calls : List StreamCall)
    (data : List Byte) (len : Int) (fmt : Fmt) (hlo : -2147483648 ≤ len) (hneg : len < 0) :
    (runStream (LogStream.ctor init) calls).append data len =
      runStream (LogStream.ctor init) calls ∧
    9223372036854775808 ≤ static_cast_size_t len ∧
    (runStream (LogStream.ctor init) calls).buffer.avail ≤ 4000 ∧
    (runStream (LogStream.ctor init) calls).buffer.appendWrites (static_cast_size_t len) = [] ∧
    (fmt.length = len →
      lshift_Fmt (runStream (LogStream.ctor init) calls) fmt =
        runStream (LogStream.ctor init) calls) := by
  have hN : kSmallBuffer < 2147483648 := by decide
  have hk : ((kSmallBuffer : Nat) : Int) = 4000 := rfl
  have hC := runStream_cursorInRange calls _ (ctor_cursorInRange init)
  have ha := FixedBuffer.avail_eq_sub _ hN hC
  have hcast := static_cast_size_t_neg len hlo hneg
  have hfull : (runStream (LogStream.ctor init) calls).buffer_.avail ≤
      ((static_cast_size_t len : Nat) : Int) := by
    have := hC.1
    omega
  have hstream : ∀ d : List Byte, (runStream (LogStream.ctor init) calls).append d len =
      runStream (LogStream.ctor init) calls := by
    intro d
    show LogStream.mk ((runStream (LogStream.ctor init) calls).buffer_.append d
      (static_cast_size_t len)) = _
    rw [FixedBuffer.append_of_not_fits _ hN hC d (static_cast_size_t len) hfull]
  refine ⟨hstream data, by omega, ?_, ?_, ?_⟩
  · show (runStream (LogStream.ctor init) calls).buffer_.avail ≤ 4000
    have := hC.1
    omega
  · show (runStream (LogStream.ctor init) calls).buffer_.appendWrites (static_cast_size_t len) = []
    unfold FixedBuffer.appendWrites
    rw [appendTraced_snd_of_not_fits _ _ _ (by rw [FixedBuffer.guard_iff _ hN hC]; omega)]
    rfl
  · intro hf
    show (runStream (LogStream.ctor init) calls).append fmt.data fmt.length = _
    rw [hf]
    exact hstream fmt.data

/-- The statement of `append_negative_len_noop` on the stream reached by
`sampleStreamCalls`, for `len = -1`. -/
theorem append_negative_len_noop_witness :
    (runStream sampleStream sampleStreamCalls).buffer.toString = asciiBytes "x" ∧
    (runStream sampleStream sampleStreamCalls).append [65] (-1) =
      runStream sampleStream sampleStreamCalls ∧
    static_cast_size_t (-1) = 18446744073709551615 :=
  ⟨by decide,
    (append_negative_len_noop (List.replicate 4000 0) sampleStreamCalls [65] (-1)
      { buf_ := [], length_ := -1 } (by decide) (by decide)).1,
    by decide⟩

end Lux
